import Mathlib

set_option maxHeartbeats 1000000

set_option maxRecDepth 8000

/-!
Verification development for the wordchipper BPE encoding core.

Token IDs are modelled as `Nat`.  The generic token type `T : TokenType`
(`u16`/`u32` in the source) is represented by carrying the value
`tmax = T::max_value()` explicitly where the source uses it; machine
arithmetic that can wrap (`u8::wrapping_add`) is modelled with explicit
`% 256`.  In-place mutation of the shared output buffer `tokens` from
index `start` onward is modelled by functions that transform the working
run `tokens[start..]` as a `List Nat` and re-append it to the untouched
prefix, which is faithful because the source only reads and writes
indices `>= start`.
-/

/-- Vocabulary interface used by the encoders.  Modelled from the spec:
the vocabulary implementation (`UnifiedTokenVocab`, `ByteVocab`,
`SpecialVocab` in `vocab/`) is not under `src/`; §3/§4.4 of the spec
describe it as immutable maps — `byte_tok` is the total byte-level
fallback (`byte_vocab().append_tokens` pushes one ID per byte),
`lookup_pair` is the pair-merge rank table, `lookup_token` the exact
whole-word map, and `specials` the special-token map (an association
list from byte sequences to IDs). -/
structure UnifiedTokenVocab where
  byte_tok : Nat → Nat
  lookup_pair : Nat × Nat → Option Nat
  lookup_token : List Nat → Option Nat
  specials : List (List Nat × Nat)

/-- Byte-level fallback seeding: one token per input byte
(`byte_vocab().append_tokens(span, tokens)`). -/
def seed_tokens (vocab : UnifiedTokenVocab) (span : List Nat) : List Nat :=
  span.map vocab.byte_tok

/-- Strict lexicographic order on `(rank, position)` pairs, the order used
by `Iterator::min` on Rust tuples. -/
def pair_lt (a b : Nat × Nat) : Bool :=
  a.1 < b.1 || (a.1 == b.1 && a.2 < b.2)

/-- Rust `Iterator::min`: the least element, the earliest one among equals. -/
def iter_min : List (Nat × Nat) → Option (Nat × Nat)
  | [] => none
  | x :: xs => some (xs.foldl (fun a b => if pair_lt b a then b else a) x)

/-- The `(rank, index)` candidates of `HybridSpanEncoder::sweep`:
`tokens[start..].windows(2).enumerate().filter_map(lookup_pair)`. -/
def pair_candidates (vocab : UnifiedTokenVocab) (cur : List Nat) : List (Nat × Nat) :=
  (cur.zip cur.tail).enum.filterMap fun p =>
    (vocab.lookup_pair p.2).map fun r => (r, p.1)

/-- One merge step shared by every strategy: write the merged ID over the
left token and delete the right token (`tokens[idx] = token;
tokens.remove(idx + 1)`). -/
def merge_at (cur : List Nat) (i : Nat) (r : Nat) : List Nat :=
  (cur.set i r).eraseIdx (i + 1)

/-- `HybridSpanEncoder::sweep` loop body (hybrid_span_encoder.rs:47-67):
while the run holds at least two tokens, find the minimal
`(rank, index)` candidate and merge there, else stop.  The loop is given
as structural recursion on `fuel`; `sweep` supplies fuel `cur.length`,
which is enough because every merge shortens the run by one. -/
def sweep_go (vocab : UnifiedTokenVocab) : Nat → List Nat → List Nat
  | 0, cur => cur
  | fuel + 1, cur =>
    if 2 ≤ cur.length then
      match iter_min (pair_candidates vocab cur) with
      | some (token, idx) => sweep_go vocab fuel (merge_at cur idx token)
      | none => cur
    else cur

/-- `HybridSpanEncoder::sweep` acting on the working run `tokens[start..]`. -/
def sweep (vocab : UnifiedTokenVocab) (cur : List Nat) : List Nat :=
  sweep_go vocab cur.length cur

/-- The merge loop exactly as the spec words it (spec §4.5 step 2-3 and
claim C2): repeatedly select the adjacent pair whose `pair_ranks` value
is minimal among the pairs that have an entry, ties broken by leftmost
position; replace the left token with the merged ID and delete the right
one; stop when no remaining adjacent pair has an entry. -/
def spec_merge_go (vocab : UnifiedTokenVocab) : Nat → List Nat → List Nat
  | 0, cur => cur
  | fuel + 1, cur =>
    match iter_min (pair_candidates vocab cur) with
    | some (r, i) => spec_merge_go vocab fuel (merge_at cur i r)
    | none => cur

/-- Spec-worded per-word merge: seed one token per byte, then merge. -/
def spec_merge_word (vocab : UnifiedTokenVocab) (span : List Nat) : List Nat :=
  spec_merge_go vocab span.length (seed_tokens vocab span)

/-- Candidates of the rescan strategy: a pair whose rank **equals**
`tmax = T::max_value()` is excluded along with absent pairs
(merge_encoder.rs:61-87). -/
def filtered_candidates (tmax : Nat) (vocab : UnifiedTokenVocab) (cur : List Nat) :
    List (Nat × Nat) :=
  (cur.zip cur.tail).enum.filterMap fun p =>
    match vocab.lookup_pair p.2 with
    | some r => if r = tmax then none else some (r, p.1)
    | none => none

/-- Minimal-pair loop restricted to `filtered_candidates`: the exact
selection semantics of `HeapMergeContext::encode_append_word`, stated
structurally (used to characterise the rescan strategy for C7). -/
def spec_merge_filtered_go (tmax : Nat) (vocab : UnifiedTokenVocab) :
    Nat → List Nat → List Nat
  | 0, cur => cur
  | fuel + 1, cur =>
    match iter_min (filtered_candidates tmax vocab cur) with
    | some (r, i) => spec_merge_filtered_go tmax vocab fuel (merge_at cur i r)
    | none => cur

/-- `pr_for_tokens` of `HeapMergeContext::encode_append_word`
(merge_encoder.rs:61-68): the pair rank of `(cur[a], cur[b])`, with
`T::max_value()` substituted for absent pairs. -/
def pr_for (tmax : Nat) (vocab : UnifiedTokenVocab) (cur : List Nat) (a b : Nat) : Nat :=
  (vocab.lookup_pair (cur.getD a 0, cur.getD b 0)).getD tmax

/-- The initial `pair_ranks` working vector (merge_encoder.rs:73-74):
`pair_ranks[i] = pairs.get(&(CURRENT[i], CURRENT[i+1]))`, absent pairs
recorded as `T::max_value()`. -/
def init_pair_ranks (tmax : Nat) (vocab : UnifiedTokenVocab) (cur : List Nat) : List Nat :=
  (cur.zip cur.tail).map fun p => (vocab.lookup_pair p).getD tmax

/-- The `pair_ranks` maintenance performed by one iteration of the
rescan merge loop (merge_encoder.rs:93-108): after `CURRENT[i]` is set
to the merged ID, `PAIR_RANKS[i-1]` and (when a right neighbour of the
merged pair exists) `PAIR_RANKS[i+1]` are recomputed against the updated
tokens, then `PAIR_RANKS[i]` is dropped. -/
def rescan_update (tmax : Nat) (vocab : UnifiedTokenVocab)
    (cur pr : List Nat) (i r : Nat) : List Nat :=
  let cur1 := cur.set i r
  let pr1 := if 0 < i then pr.set (i - 1) (pr_for tmax vocab cur1 (i - 1) i) else pr
  let pr2 :=
    if i + 2 < cur1.length then pr1.set (i + 1) (pr_for tmax vocab cur1 i (i + 2))
    else pr1
  pr2.eraseIdx i

/-- The merge loop of `HeapMergeContext::encode_append_word`
(merge_encoder.rs:76-110): select the minimal `(rank, index)` among
`pair_ranks` entries different from `T::max_value()`; write the merged
ID over `CURRENT[i]` and drop `CURRENT[i+1]` (`merge_at`); maintain
`pair_ranks` (`rescan_update`).  Structural recursion on `fuel`; fuel
`cur.length` is enough because every iteration shortens the run. -/
def rescan_go (tmax : Nat) (vocab : UnifiedTokenVocab) :
    Nat → List Nat → List Nat → List Nat
  | 0, cur, _ => cur
  | fuel + 1, cur, pr =>
    match iter_min (pr.enum.filterMap fun p =>
        if p.2 = tmax then none else some (p.2, p.1)) with
    | none => cur
    | some (new_token, i) =>
      rescan_go tmax vocab fuel (merge_at cur i new_token)
        (rescan_update tmax vocab cur pr i new_token)

/-- `HeapMergeContext::encode_append_word` (merge_encoder.rs:43-111):
seed the output buffer with one token per byte, build the `pair_ranks`
vector, run the rescan merge loop.  The scratch `resize`/`clear` of
`pair_ranks` (lines 48-51) only recycles capacity and is semantically
absorbed by rebuilding the vector; it aborts on an empty `span`
(`span.len() - 1` underflows), so this model is faithful for the
non-empty spans the encoder feeds it. -/
def encode_append_word (tmax : Nat) (vocab : UnifiedTokenVocab)
    (span : List Nat) (tokens : List Nat) : List Nat :=
  let cur := seed_tokens vocab span
  tokens ++ rescan_go tmax vocab cur.length cur (init_pair_ranks tmax vocab cur)

/-- Sentinel value for "no neighbor" in the linked list (`u32::MAX`,
hybrid_span_encoder.rs:19). -/
def SENT : Nat := 4294967295

/-- Heap entry `(merge_rank, position, generation_at_push_time)`.  The
source wraps entries in `Reverse` so `BinaryHeap::pop` yields the
lexicographically least triple; the heap is modelled as a multiset
(a list) popped at its least element. -/
abbrev HeapEntry := Nat × Nat × Nat

/-- Strict lexicographic order on heap entries. -/
def trip_lt (a b : HeapEntry) : Bool :=
  a.1 < b.1 ||
    (a.1 == b.1 && (a.2.1 < b.2.1 || (a.2.1 == b.2.1 && a.2.2 < b.2.2)))

/-- Pop the least entry of the heap (ties are equal triples, so which
copy is removed is immaterial). -/
def heap_pop : List HeapEntry → Option (HeapEntry × List HeapEntry)
  | [] => none
  | x :: xs =>
    match heap_pop xs with
    | none => some (x, [])
    | some (m, rest) => if trip_lt m x then some (m, x :: rest) else some (x, xs)

/-- State of `HybridSpanEncoder::heap_merge`: the working run of tokens,
the `next`/`prev` linked-list arrays, the 8-bit generation counters and
the heap. -/
structure HeapSt where
  cur : List Nat
  nxt : List Nat
  prv : List Nat
  gcnt : List Nat
  heap : List HeapEntry

/-- Seed the heap with all adjacent ranked pairs by walking the linked
list (hybrid_span_encoder.rs:91-101).  `fuel = n` covers the walk. -/
def seed_heap_go (vocab : UnifiedTokenVocab) (cur nxt : List Nat) :
    Nat → Nat → List HeapEntry → List HeapEntry
  | 0, _, acc => acc
  | fuel + 1, pos, acc =>
    let j := nxt.getD pos SENT
    if j = SENT then acc
    else
      let acc :=
        match vocab.lookup_pair (cur.getD pos 0, cur.getD j 0) with
        | some rank => acc ++ [(rank, pos, 0)]
        | none => acc
      seed_heap_go vocab cur nxt fuel j acc

/-- Push `(rank, pos, g)` when the pair `(a, b)` has a rank
(the `if let Some(new_rank) = vocab.lookup_pair(..) { heap.push(..) }`
pattern of hybrid_span_encoder.rs:131-146). -/
def push_if_rank (vocab : UnifiedTokenVocab) (heap : List HeapEntry)
    (a b pos g : Nat) : List HeapEntry :=
  match vocab.lookup_pair (a, b) with
  | some nr => heap ++ [(nr, pos, g)]
  | none => heap

/-- The splice performed by a validated merge at position `i` with right
neighbor `j` (hybrid_span_encoder.rs:116-146), acting on the state whose
heap already had the entry popped: write the merged ID, unlink `j`,
bump generations (8-bit wrapping: `% 256`) and push the new left and
right neighbor pairs when they have a rank. -/
def splice_merge (vocab : UnifiedTokenVocab) (st1 : HeapSt) (rank i j : Nat) : HeapSt :=
  let cur1 := st1.cur.set i rank
  let k := st1.nxt.getD j SENT
  let nxt1 := st1.nxt.set i k
  let prv1 := if k ≠ SENT then st1.prv.set k i else st1.prv
  let nxt2 := nxt1.set j SENT
  let gen1 := st1.gcnt.set i ((st1.gcnt.getD i 0 + 1) % 256)
  let p := prv1.getD i SENT
  let s2 :=
    if p ≠ SENT then
      let gen2 := gen1.set p ((gen1.getD p 0 + 1) % 256)
      (gen2, push_if_rank vocab st1.heap (cur1.getD p 0) (cur1.getD i 0) p
        (gen2.getD p 0))
    else (gen1, st1.heap)
  let heap2 :=
    if k ≠ SENT then
      push_if_rank vocab s2.2 (cur1.getD i 0) (cur1.getD k 0) i (s2.1.getD i 0)
    else s2.2
  { cur := cur1, nxt := nxt2, prv := prv1, gcnt := s2.1, heap := heap2 }

/-- The body of one merge-loop iteration of
`HybridSpanEncoder::heap_merge` (hybrid_span_encoder.rs:104-147), after
the entry `e = (rank, i, entry_gen)` has been popped leaving `rest`:
skip the entry if its generation is stale or its position has no right
neighbor, otherwise perform the splice merge. -/
def heap_step (vocab : UnifiedTokenVocab) (st : HeapSt) (e : HeapEntry)
    (rest : List HeapEntry) : HeapSt :=
  let st1 : HeapSt := { st with heap := rest }
  if e.2.2 ≠ st1.gcnt.getD e.2.1 0 then st1
  else if st1.nxt.getD e.2.1 SENT = SENT then st1
  else splice_merge vocab st1 e.1 e.2.1 (st1.nxt.getD e.2.1 SENT)

/-- The merge loop of `HybridSpanEncoder::heap_merge`
(hybrid_span_encoder.rs:104-147): pop the least entry and run
`heap_step` until the heap empties. -/
def merge_loop (vocab : UnifiedTokenVocab) : Nat → HeapSt → HeapSt
  | 0, st => st
  | fuel + 1, st =>
    match heap_pop st.heap with
    | none => st
    | some (e, rest) => merge_loop vocab fuel (heap_step vocab st e rest)

/-- Final compaction (hybrid_span_encoder.rs:149-161): walk the linked
list from position 0 writing live tokens contiguously; the result list
models `tokens[start..write]` after the `truncate`. -/
def compact_go (cur nxt : List Nat) : Nat → Nat → List Nat → List Nat
  | 0, _, acc => acc
  | fuel + 1, pos, acc =>
    let acc := acc ++ [cur.getD pos 0]
    let np := nxt.getD pos SENT
    if np = SENT then acc else compact_go cur nxt fuel np acc

/-- Initial `next` array: `[1, 2, …, n-1, SENT]`
(hybrid_span_encoder.rs:79-81). -/
def init_nxt (n : Nat) : List Nat :=
  (List.range n).map fun i => if i + 1 < n then i + 1 else SENT

/-- Initial `prev` array: `[SENT, 0, 1, …, n-2]`
(hybrid_span_encoder.rs:83-85). -/
def init_prv (n : Nat) : List Nat :=
  SENT :: List.range (n - 1)

/-- `HybridSpanEncoder::heap_merge` on the working run
(hybrid_span_encoder.rs:70-162).  The source only reaches this with a
run of at least two tokens (the `n <= 1` early return in
`encode_append_compound_span`).  The merge-loop fuel
`heap.length + 2*n` dominates the variant
`heap.length + 2*|{i | next[i] ≠ SENT}|`, which strictly decreases at
every iteration. -/
def heap_merge (vocab : UnifiedTokenVocab) (cur : List Nat) : List Nat :=
  let n := cur.length
  let nxt := init_nxt n
  let heap0 := seed_heap_go vocab cur nxt n 0 []
  let st := merge_loop vocab (heap0.length + 2 * n)
    ⟨cur, nxt, init_prv n, List.replicate n 0, heap0⟩
  compact_go st.cur st.nxt n 0 []

/-- `SWEEP_THRESHOLD` (hybrid_span_encoder.rs:16). -/
def SWEEP_THRESHOLD : Nat := 16

/-- `HybridSpanEncoder::encode_append_compound_span`
(hybrid_span_encoder.rs:166-185): seed one token per byte; runs of at
most one token are left as-is; short runs take the sweep path, long
runs the heap path. -/
def encode_append_compound_span (vocab : UnifiedTokenVocab)
    (span : List Nat) (tokens : List Nat) : List Nat :=
  let cur := seed_tokens vocab span
  if cur.length ≤ 1 then tokens ++ cur
  else if cur.length ≤ SWEEP_THRESHOLD then tokens ++ sweep vocab cur
  else tokens ++ heap_merge vocab cur

/-- Seed token sitting at position `j` of the wrap-around scenario span
(positions 1-255 hold tokens 1-255, position 256 holds 500, position
257 holds 1). -/
def cex_s (j : Nat) : Nat := if j ≤ 255 then j else if j = 256 then 500 else 1

/-- Pair-rank table of the wrap-around scenario.  `(500, 1) ↦ 999999`
(the pair seeded at positions 0-1 and again at 256-257), `(1, 2) ↦
10010`, and a merge chain `(10000 + 10*(k-1), cex_s (k+1)) ↦ 10000 +
10*k` for `k = 2..256` that keeps position 1 merging with its right
neighbor 256 times.  Every rank exceeds both its inputs, as OpenAI-style
vocabularies guarantee. -/
def cex_pair : Nat × Nat → Option Nat := fun p =>
  if p.1 = 500 && p.2 = 1 then some 999999
  else if p.1 = 1 && p.2 = 2 then some 10010
  else if 10010 ≤ p.1 && p.1 ≤ 12550 && (p.1 - 10000) % 10 = 0
          && p.2 = cex_s ((p.1 - 10000) / 10 + 2) then some (p.1 + 10)
  else none

/-- Wrap-around scenario vocabulary: byte 0 falls back to token 500,
every other byte to itself. -/
def cexv : UnifiedTokenVocab :=
  { byte_tok := fun b => if b = 0 then 500 else b
    lookup_pair := cex_pair
    lookup_token := fun _ => none
    specials := [] }

/-- Wrap-around scenario span: 258 bytes `0, 1, …, 255, 0, 1`. -/
def cex_span : List Nat := (List.range 258).map (· % 256)

/-- The 258 seeded tokens `500, 1, 2, …, 255, 500, 1`. -/
def cex_seed : List Nat := seed_tokens cexv cex_span

/-- Test vocabulary used by concrete witnesses: `(1,2) ↦ 5`, `(5,3) ↦ 6`,
byte fallback is the identity. -/
def test_vocab : UnifiedTokenVocab :=
  { byte_tok := id
    lookup_pair := fun p =>
      if p = (1, 2) then some 5 else if p = (5, 3) then some 6 else none
    lookup_token := fun _ => none
    specials := [] }

/-- Vocabulary whose only pair rank is `u16::MAX = 65535`. -/
def sentinel_vocab : UnifiedTokenVocab :=
  { byte_tok := id
    lookup_pair := fun p => if p = (1, 2) then some 65535 else none
    lookup_token := fun _ => none
    specials := [] }

/-- Number of linked-list slots still pointing at a right neighbour. -/
def nz_count (nxt : List Nat) : Nat := nxt.countP fun v => decide (v ≠ SENT)

/-- Linked-list invariant of the heap merge: `next` has length `n` and
every live pointer moves strictly to the right and stays inside the
run. -/
def NxtInv (n : Nat) (nxt : List Nat) : Prop :=
  nxt.length = n ∧
    ∀ i, i < n → nxt.getD i SENT = SENT ∨ (i < nxt.getD i SENT ∧ nxt.getD i SENT < n)

/-- A tagged byte range produced by the text spanner
(spanning/text_spanner.rs), absolute into the original text. -/
inductive SpanRef where
  | Word : Nat × Nat → SpanRef
  | Gap : Nat × Nat → SpanRef
  | Special : Nat × Nat → SpanRef
deriving DecidableEq

/-- The range of a span. -/
def span_range : SpanRef → Nat × Nat
  | SpanRef.Word r => r
  | SpanRef.Gap r => r
  | SpanRef.Special r => r

/-- `SpanLexer::next_span` (spanning/span_lexer.rs): find the next span
at or after `offset`, relative to `text`. -/
abbrev SpanLexer := List Nat → Nat → Option (Nat × Nat)

/-- The visitor `f` of `for_each_split_span`, modelled as a pure function
of the spans it has already been shown (the history determines any
`FnMut` closure's state) and the current span. -/
abbrev Visitor := List SpanRef → SpanRef → Bool

/-- `offset_range` (compat/ranges): shift a chunk-relative range by the
chunk's absolute offset. -/
def offset_range (r : Nat × Nat) (offset : Nat) : Nat × Nat :=
  (r.1 + offset, r.2 + offset)

/-- `LexerTextSpanner::for_each_word` (lexer_spanner.rs:74-109): walk the
word lexer over `text`, emitting `Gap` spans for uncovered runs and
`Word` spans for matches, all offset to absolute positions; stop early
when the visitor declines, returning `(false, last)` with the
chunk-relative cursor of the declined span.  The result pairs the list
of spans passed to the visitor with `some (flag, cursor)`, or `none`
when the fuel is exhausted (the source loops forever on a lexer that
never advances). -/
def for_each_word (wlex : SpanLexer) (text : List Nat) (offset : Nat)
    (f : Visitor) : Nat → List SpanRef → Nat → List SpanRef × Option (Bool × Nat)
  | 0, acc, _ => (acc, none)
  | fuel + 1, acc, last =>
    match wlex text last with
    | some (s, e) =>
      if last < s then
        let g := SpanRef.Gap (offset_range (last, s) offset)
        if f acc g then
          let acc1 := acc ++ [g]
          let w := SpanRef.Word (offset_range (s, e) offset)
          if f acc1 w then for_each_word wlex text offset f fuel (acc1 ++ [w]) e
          else (acc1 ++ [w], some (false, s))
        else (acc ++ [g], some (false, last))
      else
        let w := SpanRef.Word (offset_range (s, e) offset)
        if f acc w then for_each_word wlex text offset f fuel (acc ++ [w]) e
        else (acc ++ [w], some (false, last))
    | none =>
      if last < text.length then
        let g := SpanRef.Gap (offset_range (last, text.length) offset)
        if f acc g then (acc ++ [g], some (true, text.length))
        else (acc ++ [g], some (false, last))
      else (acc, some (true, last))

/-- `LexerTextSpanner::next_special_span` (lexer_spanner.rs:111-119):
scan the optional special lexer from the start of the remaining text. -/
def next_special_span (slex : Option SpanLexer) (text : List Nat) :
    Option (Nat × Nat) :=
  match slex with
  | none => none
  | some lexer => lexer text 0

/-- `LexerTextSpanner::for_each_split_span` (lexer_spanner.rs:122-152):
alternate special matches with word passes over the text before them,
slicing off the consumed prefix and accumulating `offset`.  The word
passes receive fuel `chunk length + 2`, enough for any lexer that
advances; the outer fuel bounds the number of special spans. -/
def for_each_split_span_go (wlex : SpanLexer) (slex : Option SpanLexer)
    (f : Visitor) :
    Nat → List SpanRef → List Nat → Nat → List SpanRef × Option (Bool × Nat)
  | 0, acc, _, _ => (acc, none)
  | fuel + 1, acc, current, offset =>
    match next_special_span slex current with
    | some (s, e) =>
      let pre := current.take s
      match for_each_word wlex pre offset f (pre.length + 2) acc 0 with
      | (acc1, none) => (acc1, none)
      | (acc1, some (cont, used)) =>
        if cont then
          let sp := SpanRef.Special (offset_range (s, e) offset)
          if f acc1 sp then
            for_each_split_span_go wlex slex f fuel (acc1 ++ [sp])
              (current.drop e) (offset + e)
          else (acc1 ++ [sp], some (false, offset + s))
        else (acc1, some (false, offset + used))
    | none => for_each_word wlex current offset f (current.length + 2) acc 0

/-- Top-level `for_each_split_span` over the full text. -/
def for_each_split_span (wlex : SpanLexer) (slex : Option SpanLexer)
    (f : Visitor) (text : List Nat) : List SpanRef × Option (Bool × Nat) :=
  for_each_split_span_go wlex slex f (text.length + 1) [] text 0

/-- The bytes of `text` covered by the half-open range `r`. -/
def byte_slice (text : List Nat) (r : Nat × Nat) : List Nat :=
  (text.take r.2).drop r.1

/-- Longest special key matching at position `p`.  Modelled from the
spec: the exact-match union regex over the special vocabulary
(`exact_match_union_regex_pattern`, not under `src/`; spec §3 orders the
alternation longest-first so a prefix special cannot mask a longer
one). -/
def match_at (keys : List (List Nat)) (text : List Nat) (p : Nat) : Option Nat :=
  keys.foldl
    (fun best k =>
      if k.isPrefixOf (text.drop p) then
        match best with
        | none => some k.length
        | some b => if b < k.length then some k.length else some b
      else best)
    none

/-- Leftmost match scan of the exact-match union.  Modelled from the
spec: `find_iter` yields matches in input order, so `next_span` returns
the leftmost position where some special key matches. -/
def special_scan (keys : List (List Nat)) (text : List Nat) :
    Nat → Nat → Option (Nat × Nat)
  | 0, _ => none
  | fuel + 1, p =>
    match match_at keys text p with
    | some l => some (p, p + l)
    | none => if p < text.length then special_scan keys text fuel (p + 1) else none

/-- Modelled from the spec: the special-token lexer compiled by
`TextSegmentor::init` as an exact-match union of the special
vocabulary's byte sequences (text_segmentor.rs:81-98; the regex engine
itself is not under `src/`). -/
def special_union_lexer (keys : List (List Nat)) : SpanLexer :=
  fun text offset => special_scan keys text (text.length + 1) offset

/-- `SpecialVocab::lookup_token`: exact-match lookup in the special
vocabulary.  Modelled from the spec (§4.4, `SpecialVocab` not under
`src/`): a read-only map from literal byte sequences to IDs. -/
def lookup_special (vocab : UnifiedTokenVocab) (bs : List Nat) : Option Nat :=
  List.lookup bs vocab.specials

/-- `MergeEncoder::encode_append_span_ref` (merge_encoder.rs:176-201):
`Gap` spans are skipped; a `Word` span is pushed whole on a word-vocab
hit and otherwise run through `HeapMergeContext::encode_append_word`
(which aborts on an empty span — modelled as `none`); a `Special` span
pushes `lookup_special(..).unwrap()`, whose panic on a missing special
is modelled as `none`. -/
def encode_append_span_ref (tmax : Nat) (vocab : UnifiedTokenVocab)
    (text : List Nat) (sp : SpanRef) (tokens : List Nat) : Option (List Nat) :=
  match sp with
  | SpanRef.Gap _ => some tokens
  | SpanRef.Word r =>
    let s := byte_slice text r
    match vocab.lookup_token s with
    | some token => some (tokens ++ [token])
    | none => if s = [] then none else some (encode_append_word tmax vocab s tokens)
  | SpanRef.Special r =>
    match lookup_special vocab (byte_slice text r) with
    | some t => some (tokens ++ [t])
    | none => none

/-- `MergeEncoder::try_encode_append` (merge_encoder.rs:222-234): run the
spanner over the text with a visitor that encodes each span and always
continues.  Since the encoding visitor always returns `true` and does
not influence spanning, it is modelled as the span trace followed by a
fold; `none` models a panic (or a spanner that never terminates). -/
def try_encode_append (tmax : Nat) (vocab : UnifiedTokenVocab)
    (wlex : SpanLexer) (slex : Option SpanLexer)
    (text : List Nat) (tokens : List Nat) : Option (List Nat) :=
  match for_each_split_span wlex slex (fun _ _ => true) text with
  | (_, none) => none
  | (trace, some _) =>
    trace.foldlM (fun toks sp => encode_append_span_ref tmax vocab text sp toks)
      tokens

/-- A word lexer that, at any position, matches the whole remaining
text: the simplest in-bounds, non-empty, advancing lexer (like the
regex `.+`). -/
def rest_lexer : SpanLexer :=
  fun text offset => if offset < text.length then some (offset, text.length) else none

/-- A word lexer returning the empty match `(0, 0)` at offset 0: its
ranges lie within any text and start at or after the offset, yet the
spanner loops forever on it. -/
def empty_match_lexer : SpanLexer :=
  fun _ offset => if offset = 0 then some (0, 0) else none

/-- Visitor that declines every `Word` span and accepts the rest. -/
def reject_words : Visitor :=
  fun _ sp => match sp with
  | SpanRef.Word _ => false
  | _ => true

/-- Contiguous ascending chain of non-empty spans tiling `[a, b)`. -/
def chain_from : Nat → List SpanRef → Nat → Prop
  | a, [], b => a = b
  | a, sp :: rest, b =>
    (span_range sp).1 = a ∧ a < (span_range sp).2 ∧
      chain_from (span_range sp).2 rest b

/-- True of `Word` and `Gap` spans. -/
def not_special : SpanRef → Prop
  | SpanRef.Special _ => False
  | _ => True

/-- End of the last `Special` span in a trace (0 if none): the number of
bytes the spanner has sliced off the front of the text. -/
def last_special_end (tr : List SpanRef) : Nat :=
  tr.foldl (fun a sp => match sp with | SpanRef.Special r => r.2 | _ => a) 0

/-- A small vocabulary whose special vocab holds the single key `[9]`
with ID 7 (word and pair lookups empty, byte-level fallback the
identity). -/
def c5v : UnifiedTokenVocab :=
  { byte_tok := fun b => b, lookup_pair := fun _ => none,
    lookup_token := fun _ => none, specials := [([9], 7)] }

/-- `PoolToy::init` (pool_toy.rs:41-55): the pool holds
`min(max_pool.unwrap_or(sys_max), sys_max)` clones of `item`
(`available_parallelism` is abstracted as `sys_max`; both it and any
given `max_pool` are `NonZero` in the source). -/
def pool_toy_init {α : Type} (item : α) (max_pool : Option Nat) (sys_max : Nat) :
    List α :=
  List.replicate (min (max_pool.getD sys_max) sys_max) item

/-- `PoolToy::get` (pool_toy.rs:57-61): index the pool by the thread
hash modulo its length (an out-of-bounds panic is modelled as
`none`). -/
def pool_toy_get {α : Type} (pool : List α) (tid : Nat) : Option α :=
  pool[tid % pool.length]?

/-- `PoolEncoder::try_encode_append` (pool_encoder.rs:58-64): delegate
to the pool slot selected by the current thread's hash. -/
def pool_encoder_try_encode_append
    (enc : List Nat → List Nat → Option (List Nat))
    (max_pool : Option Nat) (sys_max : Nat) (tid : Nat)
    (text tokens : List Nat) : Option (Option (List Nat)) :=
  (pool_toy_get (pool_toy_init enc max_pool sys_max) tid).map
    (fun d => d text tokens)

/-- Kernel evaluation of the incremental sweep on the wrap-around
span. -/
theorem cex_sweep_eval : sweep cexv cex_seed = [500, 12560] := by
  decide

/-- Kernel evaluation of the pair-rank rescan merge on the wrap-around
span. -/
theorem cex_rescan_eval :
    encode_append_word 4294967295 cexv cex_span [] = [500, 12560] := by
  decide

/-- Kernel evaluation of the heap merge on the wrap-around span: the
wrapped generation counter revalidates the stale seed entry. -/
theorem cex_heap_eval : heap_merge cexv cex_seed = [999999] := by
  decide

/-- Claim C1 (code_bug evidence): the three merge strategies do NOT
append identical token sequences for every vocabulary and span.  On the
wrap-around scenario the 256 merges adjacent to position 1 bump the
8-bit generation counter of position 0 exactly 256 times, so it wraps
back to 0 and revalidates the stale seed entry `(999999, 0, 0)` whose
pair was consumed long before: `heap_merge` (and therefore the hybrid
strategy, whose 258-token run exceeds `SWEEP_THRESHOLD`) finishes the
run with the stale merge and outputs `[999999]`, while the incremental
sweep and the pair-rank rescan both output `[500, 12560]`. -/
theorem c1_strategy_divergence :
    sweep cexv cex_seed = [500, 12560] ∧
    encode_append_word 4294967295 cexv cex_span [] = [500, 12560] ∧
    heap_merge cexv cex_seed = [999999] ∧
    encode_append_compound_span cexv cex_span [] = [999999] := by
  refine ⟨cex_sweep_eval, cex_rescan_eval, cex_heap_eval, ?_⟩
  have h1 : ¬ (seed_tokens cexv cex_span).length ≤ 1 := by decide
  have h2 : ¬ (seed_tokens cexv cex_span).length ≤ SWEEP_THRESHOLD := by decide
  unfold encode_append_compound_span
  rw [if_neg h1, if_neg h2, List.nil_append]
  exact cex_heap_eval

/-- The fold underlying `iter_min` picks an element of `a :: xs`. -/
theorem foldl_pick_mem (xs : List (Nat × Nat)) :
    ∀ a, xs.foldl (fun u v => if pair_lt v u then v else u) a ∈ a :: xs := by
  induction xs with
  | nil => intro a; simp
  | cons y ys ih =>
    intro a
    simp only [List.foldl_cons]
    rcases List.mem_cons.mp (ih (if pair_lt y a then y else a)) with h | h
    · rw [h]
      by_cases hc : pair_lt y a
      · simp [hc]
      · simp [hc]
    · exact List.mem_cons_of_mem _ (List.mem_cons_of_mem _ h)

/-- `iter_min` returns an element of its input list. -/
theorem iter_min_mem {l : List (Nat × Nat)} {x : Nat × Nat}
    (h : iter_min l = some x) : x ∈ l := by
  cases l with
  | nil => simp [iter_min] at h
  | cons y ys =>
    simp only [iter_min, Option.some.injEq] at h
    rw [← h]
    exact foldl_pick_mem ys y

/-- A candidate of the rescan selection names a mergeable position:
`i + 1` is still inside the run. -/
theorem mem_filtered_candidates_lt {tmax : Nat} {vocab : UnifiedTokenVocab}
    {cur : List Nat} {r i : Nat}
    (h : (r, i) ∈ filtered_candidates tmax vocab cur) : i + 1 < cur.length := by
  unfold filtered_candidates at h
  rcases List.mem_filterMap.mp h with ⟨⟨idx, p⟩, hmem, heq⟩
  have hidx : idx < (cur.zip cur.tail).length := (List.mem_enum hmem).1
  have hi : i = idx := by
    rcases hp : vocab.lookup_pair p with _ | r'
    · simp [hp] at heq
    · by_cases hr : r' = tmax <;> simp [hp, hr] at heq
      exact heq.2.symm
  subst hi
  rcases cur with _ | ⟨a, l⟩
  · simp at hidx
  · simp only [List.length_zip, List.tail_cons, List.length_cons] at hidx ⊢
    omega

/-- A sweep candidate names a mergeable position. -/
theorem mem_pair_candidates_lt {vocab : UnifiedTokenVocab}
    {cur : List Nat} {r i : Nat}
    (h : (r, i) ∈ pair_candidates vocab cur) : i + 1 < cur.length := by
  unfold pair_candidates at h
  rcases List.mem_filterMap.mp h with ⟨⟨idx, p⟩, hmem, heq⟩
  have hidx : idx < (cur.zip cur.tail).length := (List.mem_enum hmem).1
  have hi : i = idx := by
    rcases hp : vocab.lookup_pair p with _ | r'
    · simp [hp] at heq
    · simp [hp] at heq
      exact heq.2.symm
  subst hi
  rcases cur with _ | ⟨a, l⟩
  · simp at hidx
  · simp only [List.length_zip, List.tail_cons, List.length_cons] at hidx ⊢
    omega

/-- The rescan selection over the `pair_ranks` vector equals the direct
filtered candidate list: `T::max_value()` entries stand exactly for the
pairs that are absent or rank-`tmax`. -/
theorem rescan_selection (tmax : Nat) (vocab : UnifiedTokenVocab) (cur : List Nat) :
    ((init_pair_ranks tmax vocab cur).enum.filterMap fun p =>
        if p.2 = tmax then none else some (p.2, p.1)) =
      filtered_candidates tmax vocab cur := by
  unfold init_pair_ranks filtered_candidates
  rw [List.enum_map, List.filterMap_map]
  apply List.filterMap_congr
  intro ⟨idx, p⟩ _
  rcases hp : vocab.lookup_pair p with _ | r'
  · simp [hp, Prod.map]
  · by_cases hr : r' = tmax <;> simp [hp, hr, Prod.map]

theorem ipr_cons (tmax : Nat) (vocab : UnifiedTokenVocab) (a b : Nat) (l : List Nat) :
    init_pair_ranks tmax vocab (a :: b :: l) =
      ((vocab.lookup_pair (a, b)).getD tmax) :: init_pair_ranks tmax vocab (b :: l) := rfl

theorem pr_for_cons (tmax : Nat) (vocab : UnifiedTokenVocab) (x : Nat) (l : List Nat)
    (a b : Nat) : pr_for tmax vocab (x :: l) (a + 1) (b + 1) = pr_for tmax vocab l a b := by
  simp [pr_for, List.getD_cons_succ]

theorem merge_at_cons_succ (x : Nat) (l : List Nat) (n r : Nat) :
    merge_at (x :: l) (n + 1) r = x :: merge_at l n r := by
  simp [merge_at, List.set_cons_succ, List.eraseIdx_cons_succ]

theorem merge_at_zero (a b : Nat) (l : List Nat) (r : Nat) :
    merge_at (a :: b :: l) 0 r = r :: l := by
  simp [merge_at]

theorem rescan_update_cons₂ (tmax : Nat) (vocab : UnifiedTokenVocab)
    (a ph : Nat) (l ptail : List Nat) (s r : Nat) :
    rescan_update tmax vocab (a :: l) (ph :: ptail) (s + 2) r =
      ph :: rescan_update tmax vocab l ptail (s + 1) r := by
  simp only [rescan_update, List.set_cons_succ, List.length_set, List.length_cons]
  rw [if_pos (by omega : (0:Nat) < s + 2), if_pos (by omega : (0:Nat) < s + 1)]
  have harith : s + 2 - 1 = s + 1 := by omega
  have harith2 : s + 1 + 1 = s + 2 := by omega
  have ep1 : pr_for tmax vocab (a :: l.set (s + 1) r) (s + 1) (s + 2) =
      pr_for tmax vocab (l.set (s + 1) r) s (s + 1) := pr_for_cons ..
  have ep2 : pr_for tmax vocab (a :: l.set (s + 1) r) (s + 2) (s + 2 + 2) =
      pr_for tmax vocab (l.set (s + 1) r) (s + 1) (s + 1 + 2) := pr_for_cons ..
  by_cases hc : s + 1 + 2 < l.length
  · rw [if_pos (by omega : s + 2 + 2 < l.length + 1), if_pos hc]
    rw [harith]
    simp only [List.set_cons_succ, List.eraseIdx_cons_succ]
    rw [show s + 1 - 1 = s by omega, ep1, ep2, show s + 1 + 1 = s + 2 from rfl]
  · rw [if_neg (by omega : ¬ s + 2 + 2 < l.length + 1), if_neg hc]
    rw [harith]
    simp only [List.set_cons_succ, List.eraseIdx_cons_succ]
    rw [show s + 1 - 1 = s by omega, ep1]

theorem rescan_update_one (tmax : Nat) (vocab : UnifiedTokenVocab)
    (a ph : Nat) (l ptail : List Nat) (r : Nat) :
    rescan_update tmax vocab (a :: l) (ph :: ptail) 1 r =
      pr_for tmax vocab (a :: l.set 0 r) 0 1 ::
        rescan_update tmax vocab l ptail 0 r := by
  simp only [rescan_update, List.set_cons_succ, List.length_set, List.length_cons]
  rw [if_pos (by omega : (0:Nat) < 1), if_neg (by omega : ¬ (0:Nat) < 0)]
  have ep2 : pr_for tmax vocab (a :: l.set 0 r) 1 (1 + 2) =
      pr_for tmax vocab (l.set 0 r) 0 2 := pr_for_cons ..
  by_cases hc : (0:Nat) + 2 < l.length
  · rw [if_pos (by omega : 1 + 2 < l.length + 1), if_pos hc]
    simp only [List.set_cons_succ, List.set_cons_zero, List.eraseIdx_cons_succ,
      Nat.sub_self]
    rw [ep2]
  · rw [if_neg (by omega : ¬ 1 + 2 < l.length + 1), if_neg hc]
    simp only [List.set_cons_zero, List.eraseIdx_cons_succ, Nat.sub_self]

theorem rescan_update_ipr (tmax : Nat) (vocab : UnifiedTokenVocab) :
    ∀ (i : Nat) (cur : List Nat) (r : Nat), i + 1 < cur.length →
      rescan_update tmax vocab cur (init_pair_ranks tmax vocab cur) i r =
        init_pair_ranks tmax vocab (merge_at cur i r) := by
  intro i
  induction i with
  | zero =>
    intro cur r h
    match cur, h with
    | a :: b :: rest, _ =>
      cases rest with
      | nil =>
        simp [rescan_update, merge_at, init_pair_ranks, pr_for]
      | cons c rest' =>
        have hcond : (0:Nat) + 2 < ((a :: b :: c :: rest').set 0 r).length := by
          simp [List.length_set]
        simp only [rescan_update]
        rw [if_neg (by omega : ¬ (0:Nat) < 0), if_pos hcond, merge_at_zero]
        rw [ipr_cons, ipr_cons, ipr_cons]
        simp [pr_for]
  | succ i ih =>
    intro cur r h
    rcases cur with _ | ⟨a, cur'⟩
    · simp at h
    rcases cur' with _ | ⟨b, cur''⟩
    · simp at h
    have hin : i + 1 < (b :: cur'').length := by
      simp at h ⊢; omega
    rw [ipr_cons, merge_at_cons_succ]
    cases i with
    | zero =>
      rw [rescan_update_one, ih _ r hin]
      rcases cur'' with _ | ⟨c, rest⟩
      · simp at hin
      rw [merge_at_zero, ipr_cons]
      simp [pr_for]
    | succ s =>
      rw [rescan_update_cons₂, ih _ r hin]
      rcases cur'' with _ | ⟨c, rest⟩
      · simp at hin
      rw [merge_at_cons_succ, ipr_cons]

theorem rescan_go_eq_filtered (tmax : Nat) (vocab : UnifiedTokenVocab) :
    ∀ (fuel : Nat) (cur : List Nat),
      rescan_go tmax vocab fuel cur (init_pair_ranks tmax vocab cur) =
        spec_merge_filtered_go tmax vocab fuel cur := by
  intro fuel
  induction fuel with
  | zero => intro cur; rfl
  | succ fuel ih =>
    intro cur
    simp only [rescan_go, spec_merge_filtered_go]
    rw [rescan_selection]
    cases hsel : iter_min (filtered_candidates tmax vocab cur) with
    | none => rfl
    | some x =>
      obtain ⟨r, i⟩ := x
      have hi : i + 1 < cur.length := mem_filtered_candidates_lt (iter_min_mem hsel)
      dsimp only
      rw [rescan_update_ipr tmax vocab i cur r hi]
      exact ih (merge_at cur i r)

theorem filtered_candidates_eq {tmax : Nat} {vocab : UnifiedTokenVocab}
    (h : ∀ p r, vocab.lookup_pair p = some r → r ≠ tmax) (cur : List Nat) :
    filtered_candidates tmax vocab cur = pair_candidates vocab cur := by
  unfold filtered_candidates pair_candidates
  apply List.filterMap_congr
  intro ⟨idx, p⟩ _
  rcases hp : vocab.lookup_pair p with _ | r'
  · simp [hp]
  · simp [hp, h p r' hp]

theorem filtered_go_eq_spec {tmax : Nat} {vocab : UnifiedTokenVocab}
    (h : ∀ p r, vocab.lookup_pair p = some r → r ≠ tmax) :
    ∀ (fuel : Nat) (cur : List Nat),
      spec_merge_filtered_go tmax vocab fuel cur = spec_merge_go vocab fuel cur := by
  intro fuel
  induction fuel with
  | zero => intro cur; rfl
  | succ fuel ih =>
    intro cur
    simp only [spec_merge_filtered_go, spec_merge_go]
    rw [filtered_candidates_eq h]
    cases hsel : iter_min (pair_candidates vocab cur) with
    | none => rfl
    | some x =>
      obtain ⟨r, i⟩ := x
      dsimp only
      exact ih (merge_at cur i r)

theorem pair_candidates_short {vocab : UnifiedTokenVocab} {cur : List Nat}
    (h : cur.length ≤ 1) : pair_candidates vocab cur = [] := by
  match cur, h with
  | [], _ => rfl
  | [x], _ => rfl

theorem sweep_go_eq_spec (vocab : UnifiedTokenVocab) :
    ∀ (fuel : Nat) (cur : List Nat),
      sweep_go vocab fuel cur = spec_merge_go vocab fuel cur := by
  intro fuel
  induction fuel with
  | zero => intro cur; rfl
  | succ fuel ih =>
    intro cur
    simp only [sweep_go, spec_merge_go]
    by_cases hl : 2 ≤ cur.length
    · rw [if_pos hl]
      cases hsel : iter_min (pair_candidates vocab cur) with
      | none => rfl
      | some x =>
        obtain ⟨r, i⟩ := x
        dsimp only
        exact ih (merge_at cur i r)
    · rw [if_neg hl]
      rw [pair_candidates_short (by omega)]
      rfl

/-- `sweep` leaves runs of at most one token unchanged. -/
theorem sweep_short {vocab : UnifiedTokenVocab} {cur : List Nat}
    (h : cur.length ≤ 1) : sweep vocab cur = cur := by
  match cur, h with
  | [], _ => rfl
  | [x], _ => rfl

/-- Claim C2: for every vocabulary whose pair table never uses the
reserved sentinel `T::max_value()` as a real rank (spec §3 reserves it
for "no such pair") and every non-empty byte span, the per-word merge —
both the `pair_ranks` rescan `HeapMergeContext::encode_append_word` and
the sweep `HybridSpanEncoder::sweep` — seeds one token per byte and then
repeatedly merges the adjacent pair of minimal rank (leftmost on ties),
stopping exactly when no remaining adjacent pair has an entry: both
equal the spec-worded loop `spec_merge_word`. -/
theorem c2_per_word_merge (tmax : Nat) (vocab : UnifiedTokenVocab)
    (span tokens : List Nat)
    (hmax : ∀ p r, vocab.lookup_pair p = some r → r ≠ tmax)
    (_hne : span ≠ []) :
    encode_append_word tmax vocab span tokens = tokens ++ spec_merge_word vocab span ∧
    sweep vocab (seed_tokens vocab span) = spec_merge_word vocab span := by
  have hlen : (seed_tokens vocab span).length = span.length := List.length_map ..
  constructor
  · unfold encode_append_word
    dsimp only
    rw [rescan_go_eq_filtered, filtered_go_eq_spec hmax]
    unfold spec_merge_word
    rw [hlen]
  · unfold sweep
    rw [sweep_go_eq_spec]
    unfold spec_merge_word
    rw [hlen]

theorem c2_per_word_merge_witness :
    encode_append_word 4294967295 test_vocab [1, 2, 3] [9] =
        [9] ++ spec_merge_word test_vocab [1, 2, 3] ∧
    sweep test_vocab (seed_tokens test_vocab [1, 2, 3]) =
      spec_merge_word test_vocab [1, 2, 3] :=
  c2_per_word_merge 4294967295 test_vocab [1, 2, 3] [9]
    (by
      intro p r h
      by_cases h1 : p = (1, 2)
      · simp [test_vocab, h1] at h
        omega
      · by_cases h2 : p = (5, 3)
        · simp [test_vocab, h1, h2] at h
          omega
        · simp [test_vocab, h1, h2] at h)
    (by decide)

/-- Claim C7 (amended): the rescan strategy
`HeapMergeContext::encode_append_word` substitutes `T::max_value()` for
absent pairs and excludes that value from merge candidates, so it never
applies a merge whose resulting token ID equals the type's maximum: it
computes exactly the minimal-pair loop over `filtered_candidates`, which
drops every pair whose rank is `tmax`.  (The sweep and heap strategies
query `lookup_pair` directly and do not share this exclusion.) -/
theorem c7_rescan_sentinel (tmax : Nat) (vocab : UnifiedTokenVocab)
    (span tokens : List Nat) :
    encode_append_word tmax vocab span tokens =
      tokens ++ spec_merge_filtered_go tmax vocab
        (seed_tokens vocab span).length (seed_tokens vocab span) := by
  unfold encode_append_word
  dsimp only
  rw [rescan_go_eq_filtered]

/-- Claim C7 (counterexample): with `T = u16` and a pair mapped to
`65535 = T::max_value()`, the sweep strategy happily applies the merge
and emits the sentinel as a token, while the rescan strategy treats the
pair as absent — so it is false that "no merge strategy ever applies a
merge whose resulting token ID equals the type's maximum". -/
theorem c7_counterexample :
    sweep sentinel_vocab [1, 2] = [65535] ∧
    encode_append_word 65535 sentinel_vocab [1, 2] [] = [1, 2] := by
  decide

/-- Claim C8: `HybridSpanEncoder::encode_append_compound_span` takes the
sweep path exactly when the seeded token count `m` is at most
`SWEEP_THRESHOLD = 16` and the heap path exactly when `m > 16`, the
output being the corresponding algorithm's output appended to the
buffer (runs of at most one token are returned as seeded, which is also
the sweep's output on them). -/
theorem c8_hybrid_dispatch (vocab : UnifiedTokenVocab) (span tokens : List Nat) :
    ((seed_tokens vocab span).length ≤ 16 →
      encode_append_compound_span vocab span tokens =
        tokens ++ sweep vocab (seed_tokens vocab span)) ∧
    (16 < (seed_tokens vocab span).length →
      encode_append_compound_span vocab span tokens =
        tokens ++ heap_merge vocab (seed_tokens vocab span)) := by
  unfold encode_append_compound_span SWEEP_THRESHOLD
  dsimp only
  constructor
  · intro h
    by_cases h1 : (seed_tokens vocab span).length ≤ 1
    · rw [if_pos h1, sweep_short h1]
    · rw [if_neg h1, if_pos h]
  · intro h
    rw [if_neg (by omega), if_neg (by omega)]

theorem c8_hybrid_dispatch_witness :
    ((seed_tokens test_vocab [1, 2, 3]).length ≤ 16 ∧
      encode_append_compound_span test_vocab [1, 2, 3] [7] =
        [7] ++ sweep test_vocab (seed_tokens test_vocab [1, 2, 3])) ∧
    (16 < (seed_tokens test_vocab (List.range 17)).length ∧
      encode_append_compound_span test_vocab (List.range 17) [7] =
        [7] ++ heap_merge test_vocab (seed_tokens test_vocab (List.range 17))) :=
  ⟨⟨by decide, (c8_hybrid_dispatch test_vocab [1, 2, 3] [7]).1 (by decide)⟩,
   ⟨by decide, (c8_hybrid_dispatch test_vocab (List.range 17) [7]).2 (by decide)⟩⟩

/-- `merge_at` at a real position shortens the run by exactly one. -/
theorem merge_at_length {cur : List Nat} {i : Nat} (r : Nat) (h : i + 1 < cur.length) :
    (merge_at cur i r).length = cur.length - 1 := by
  unfold merge_at
  rw [List.length_eraseIdx]
  simp [List.length_set, h]

theorem filtered_candidates_short {tmax : Nat} {vocab : UnifiedTokenVocab}
    {cur : List Nat} (h : cur.length ≤ 1) : filtered_candidates tmax vocab cur = [] := by
  match cur, h with
  | [], _ => rfl
  | [x], _ => rfl

/-- One extra unit of fuel changes nothing once the fuel covers the run
length: the filtered merge loop does at most `|cur| - 1` merges. -/
theorem filtered_go_succ_eq (tmax : Nat) (vocab : UnifiedTokenVocab) :
    ∀ (fuel : Nat) (cur : List Nat), cur.length ≤ fuel + 1 →
      spec_merge_filtered_go tmax vocab (fuel + 1) cur =
        spec_merge_filtered_go tmax vocab fuel cur := by
  intro fuel
  induction fuel with
  | zero =>
    intro cur h
    simp only [spec_merge_filtered_go]
    rw [filtered_candidates_short h]
    rfl
  | succ fuel ih =>
    intro cur h
    conv_lhs => rw [spec_merge_filtered_go]
    conv_rhs => rw [spec_merge_filtered_go]
    cases hsel : iter_min (filtered_candidates tmax vocab cur) with
    | none => rfl
    | some x =>
      obtain ⟨r, i⟩ := x
      dsimp only
      have hi : i + 1 < cur.length := mem_filtered_candidates_lt (iter_min_mem hsel)
      apply ih
      rw [merge_at_length r hi]
      omega

theorem filtered_go_stable (tmax : Nat) (vocab : UnifiedTokenVocab)
    (cur : List Nat) :
    ∀ (extra : Nat),
      spec_merge_filtered_go tmax vocab (cur.length + extra) cur =
        spec_merge_filtered_go tmax vocab cur.length cur := by
  intro extra
  induction extra with
  | zero => rfl
  | succ extra ih =>
    rw [show cur.length + (extra + 1) = (cur.length + extra) + 1 by omega]
    rw [filtered_go_succ_eq tmax vocab (cur.length + extra) cur (by omega)]
    exact ih

/-- The filtered merge loop never empties a non-empty run and never
lengthens it. -/
theorem filtered_go_length (tmax : Nat) (vocab : UnifiedTokenVocab) :
    ∀ (fuel : Nat) (cur : List Nat), cur ≠ [] →
      1 ≤ (spec_merge_filtered_go tmax vocab fuel cur).length ∧
      (spec_merge_filtered_go tmax vocab fuel cur).length ≤ cur.length := by
  intro fuel
  induction fuel with
  | zero =>
    intro cur h
    constructor
    · simpa [spec_merge_filtered_go] using List.length_pos.mpr h
    · simp [spec_merge_filtered_go]
  | succ fuel ih =>
    intro cur h
    rw [spec_merge_filtered_go]
    cases hsel : iter_min (filtered_candidates tmax vocab cur) with
    | none =>
      refine ⟨by simpa using List.length_pos.mpr h, by simp⟩
    | some x =>
      obtain ⟨r, i⟩ := x
      dsimp only
      have hi : i + 1 < cur.length := mem_filtered_candidates_lt (iter_min_mem hsel)
      have hne : merge_at cur i r ≠ [] := by
        have := merge_at_length r hi
        intro hcon
        rw [hcon] at this
        simp at this
        omega
      rcases ih (merge_at cur i r) hne with ⟨h1, h2⟩
      refine ⟨h1, ?_⟩
      rw [merge_at_length r hi] at h2
      omega

theorem spec_go_succ_eq (vocab : UnifiedTokenVocab) :
    ∀ (fuel : Nat) (cur : List Nat), cur.length ≤ fuel + 1 →
      spec_merge_go vocab (fuel + 1) cur = spec_merge_go vocab fuel cur := by
  intro fuel
  induction fuel with
  | zero =>
    intro cur h
    simp only [spec_merge_go]
    rw [pair_candidates_short h]
    rfl
  | succ fuel ih =>
    intro cur h
    conv_lhs => rw [spec_merge_go]
    conv_rhs => rw [spec_merge_go]
    cases hsel : iter_min (pair_candidates vocab cur) with
    | none => rfl
    | some x =>
      obtain ⟨r, i⟩ := x
      dsimp only
      have hi : i + 1 < cur.length := mem_pair_candidates_lt (iter_min_mem hsel)
      apply ih
      rw [merge_at_length r hi]
      omega

theorem spec_go_stable (vocab : UnifiedTokenVocab) (cur : List Nat) :
    ∀ (extra : Nat),
      spec_merge_go vocab (cur.length + extra) cur =
        spec_merge_go vocab cur.length cur := by
  intro extra
  induction extra with
  | zero => rfl
  | succ extra ih =>
    rw [show cur.length + (extra + 1) = (cur.length + extra) + 1 by omega]
    rw [spec_go_succ_eq vocab (cur.length + extra) cur (by omega)]
    exact ih

theorem spec_go_length (vocab : UnifiedTokenVocab) :
    ∀ (fuel : Nat) (cur : List Nat), cur ≠ [] →
      1 ≤ (spec_merge_go vocab fuel cur).length ∧
      (spec_merge_go vocab fuel cur).length ≤ cur.length := by
  intro fuel
  induction fuel with
  | zero =>
    intro cur h
    constructor
    · simpa [spec_merge_go] using List.length_pos.mpr h
    · simp [spec_merge_go]
  | succ fuel ih =>
    intro cur h
    rw [spec_merge_go]
    cases hsel : iter_min (pair_candidates vocab cur) with
    | none =>
      refine ⟨by simpa using List.length_pos.mpr h, by simp⟩
    | some x =>
      obtain ⟨r, i⟩ := x
      dsimp only
      have hi : i + 1 < cur.length := mem_pair_candidates_lt (iter_min_mem hsel)
      have hne : merge_at cur i r ≠ [] := by
        have := merge_at_length r hi
        intro hcon
        rw [hcon] at this
        simp at this
        omega
      rcases ih (merge_at cur i r) hne with ⟨h1, h2⟩
      refine ⟨h1, ?_⟩
      rw [merge_at_length r hi] at h2
      omega

theorem getD_set_self {l : List Nat} {i : Nat} (h : i < l.length) (v d : Nat) :
    (l.set i v).getD i d = v := by
  rw [List.getD_eq_getElem?_getD, List.getElem?_set]
  simp [h]

theorem getD_set_ne {l : List Nat} {i t : Nat} (h : i ≠ t) (v d : Nat) :
    (l.set i v).getD t d = l.getD t d := by
  rw [List.getD_eq_getElem?_getD, List.getElem?_set, if_neg h,
    ← List.getD_eq_getElem?_getD]

/-- `heap_pop` yields `none` only on the empty heap. -/
theorem heap_pop_none : ∀ {l : List HeapEntry}, heap_pop l = none → l = [] := by
  intro l h
  cases l with
  | nil => rfl
  | cons y ys =>
    rw [heap_pop] at h
    cases hp : heap_pop ys with
    | none => rw [hp] at h; simp at h
    | some q =>
      obtain ⟨m, rest⟩ := q
      rw [hp] at h
      dsimp only at h
      split at h <;> simp at h

/-- Popping the heap removes exactly one entry. -/
theorem heap_pop_length :
    ∀ {l rest : List HeapEntry} {x : HeapEntry},
      heap_pop l = some (x, rest) → rest.length + 1 = l.length := by
  intro l
  induction l with
  | nil => intro rest x h; simp [heap_pop] at h
  | cons y ys ih =>
    intro rest x h
    rw [heap_pop] at h
    cases hp : heap_pop ys with
    | none =>
      have hnil : ys = [] := heap_pop_none hp
      subst hnil
      rw [hp] at h
      simp at h
      rw [← h.2]
      rfl
    | some q =>
      obtain ⟨m, rest'⟩ := q
      rw [hp] at h
      dsimp only at h
      split at h
      · simp at h
        rw [← h.2]
        have := ih hp
        simp [← this]
      · simp at h
        rw [← h.2]
        rfl

theorem init_nxt_inv (n : Nat) : NxtInv n (init_nxt n) := by
  constructor
  · simp [init_nxt]
  · intro i hi
    have : (init_nxt n).getD i SENT = if i + 1 < n then i + 1 else SENT := by
      unfold init_nxt
      rw [List.getD_eq_getElem?_getD]
      rw [List.getElem?_map]
      rw [List.getElem?_range hi]
      rfl
    rw [this]
    by_cases hc : i + 1 < n
    · right
      rw [if_pos hc]
      omega
    · left
      rw [if_neg hc]

theorem push_if_rank_length (vocab : UnifiedTokenVocab) (heap : List HeapEntry)
    (a b pos g : Nat) :
    (push_if_rank vocab heap a b pos g).length ≤ heap.length + 1 := by
  unfold push_if_rank
  cases vocab.lookup_pair (a, b) <;> simp

theorem splice_merge_nxt (vocab : UnifiedTokenVocab) (st1 : HeapSt) (rank i j : Nat) :
    (splice_merge vocab st1 rank i j).nxt =
      (st1.nxt.set i (st1.nxt.getD j SENT)).set j SENT := rfl

theorem splice_merge_heap_length (vocab : UnifiedTokenVocab) (st1 : HeapSt)
    (rank i j : Nat) :
    (splice_merge vocab st1 rank i j).heap.length ≤ st1.heap.length + 2 := by
  unfold splice_merge
  dsimp only
  by_cases hk : st1.nxt.getD j SENT = SENT
  · rw [if_neg (not_not_intro hk), if_neg (not_not_intro hk)]
    by_cases hp : st1.prv.getD i SENT = SENT
    · rw [if_neg (not_not_intro hp)]
      show st1.heap.length ≤ st1.heap.length + 2
      omega
    · rw [if_pos hp]
      exact le_trans (push_if_rank_length ..)
        (by show st1.heap.length + 1 ≤ st1.heap.length + 2; omega)
  · rw [if_pos hk, if_pos hk]
    by_cases hp : (st1.prv.set (st1.nxt.getD j SENT) i).getD i SENT = SENT
    · rw [if_neg (not_not_intro hp)]
      exact le_trans (push_if_rank_length ..)
        (by show st1.heap.length + 1 ≤ st1.heap.length + 2; omega)
    · rw [if_pos hp]
      refine le_trans (push_if_rank_length ..) ?_
      exact Nat.add_le_add_right (push_if_rank_length ..) 1

theorem heapSt_mk_cur (c x p g h) : (HeapSt.mk c x p g h).cur = c := rfl

theorem heapSt_mk_nxt (c x p g h) : (HeapSt.mk c x p g h).nxt = x := rfl

theorem heapSt_mk_prv (c x p g h) : (HeapSt.mk c x p g h).prv = p := rfl

theorem heapSt_mk_gcnt (c x p g h) : (HeapSt.mk c x p g h).gcnt = g := rfl

theorem heapSt_mk_heap (c x p g h) : (HeapSt.mk c x p g h).heap = h := rfl

/-- Splicing the right neighbor of a live position out of the linked
list preserves the linked-list invariant. -/
theorem nxt_splice_inv (n : Nat) (nxt : List Nat) (hinv : NxtInv n nxt) (i : Nat)
    (hj : ¬ nxt.getD i SENT = SENT) :
    NxtInv n ((nxt.set i (nxt.getD (nxt.getD i SENT) SENT)).set
      (nxt.getD i SENT) SENT) := by
  have hnlen : nxt.length = n := hinv.1
  have hi_lt : i < n := by
    by_contra hge
    push_neg at hge
    exact hj (List.getD_eq_default _ _ (by omega))
  have hjprop : i < nxt.getD i SENT ∧ nxt.getD i SENT < n :=
    (hinv.2 i hi_lt).resolve_left hj
  have hij : i ≠ nxt.getD i SENT := by omega
  have hkprop := hinv.2 (nxt.getD i SENT) hjprop.2
  constructor
  · simp [hnlen]
  · intro t ht
    by_cases htj : t = nxt.getD i SENT
    · left
      subst htj
      rw [getD_set_self (by rw [List.length_set, hnlen]; omega)]
    · rw [getD_set_ne (fun hc => htj hc.symm)]
      by_cases hti : t = i
      · subst hti
        rw [getD_set_self (by rw [hnlen]; omega)]
        rcases hkprop with hk | hk
        · left; exact hk
        · right; omega
      · rw [getD_set_ne (fun hc => hti hc.symm)]
        exact hinv.2 t ht

/-- Splicing removes exactly one live pointer. -/
theorem nxt_splice_nz (n : Nat) (nxt : List Nat) (hinv : NxtInv n nxt) (i : Nat)
    (hj : ¬ nxt.getD i SENT = SENT) :
    nz_count ((nxt.set i (nxt.getD (nxt.getD i SENT) SENT)).set
      (nxt.getD i SENT) SENT) + 1 = nz_count nxt := by
  have hnlen : nxt.length = n := hinv.1
  have hi_lt : i < n := by
    by_contra hge
    push_neg at hge
    exact hj (List.getD_eq_default _ _ (by omega))
  have hjprop : i < nxt.getD i SENT ∧ nxt.getD i SENT < n :=
    (hinv.2 i hi_lt).resolve_left hj
  have hij : i ≠ nxt.getD i SENT := by omega
  unfold nz_count
  have hjlt : nxt.getD i SENT <
      (nxt.set i (nxt.getD (nxt.getD i SENT) SENT)).length := by
    rw [List.length_set, hnlen]; omega
  have hilt : i < nxt.length := by omega
  rw [List.countP_set _ _ _ _ hjlt, List.countP_set _ _ _ _ hilt]
  have hset_at_j : (nxt.set i
      (nxt.getD (nxt.getD i SENT) SENT))[nxt.getD i SENT] =
      nxt.getD (nxt.getD i SENT) SENT := by
    simp only [List.getElem_set_ne hij]
    exact (List.getD_eq_getElem nxt SENT (by omega)).symm
  have hat_i : nxt[i] = nxt.getD i SENT :=
    (List.getD_eq_getElem nxt SENT hilt).symm
  have hcount_pos : 0 < nxt.countP fun v => decide (v ≠ SENT) := by
    rw [List.countP_pos_iff]
    refine ⟨nxt.getD i SENT, ?_, by simp only [decide_eq_true_eq]; exact hj⟩
    rw [← hat_i]
    exact List.getElem_mem _
  simp only [hset_at_j, hat_i, decide_eq_true_eq]
  rw [if_pos hj, if_neg (not_not_intro rfl)]
  by_cases hk : nxt.getD (nxt.getD i SENT) SENT = SENT
  · rw [if_neg (not_not_intro hk)]
    omega
  · rw [if_pos hk]
    omega

/-- One `heap_step` preserves the linked-list invariant and strictly
decreases the variant `heap.length + 2 * nz_count nxt`. -/
theorem heap_step_inv_phi (vocab : UnifiedTokenVocab) (n : Nat) (st : HeapSt)
    (e : HeapEntry) (rest : List HeapEntry)
    (hinv : NxtInv n st.nxt) (hlen : rest.length + 1 = st.heap.length) :
    NxtInv n (heap_step vocab st e rest).nxt ∧
    (heap_step vocab st e rest).heap.length +
        2 * nz_count (heap_step vocab st e rest).nxt + 1 ≤
      st.heap.length + 2 * nz_count st.nxt := by
  unfold heap_step
  dsimp only
  by_cases hg : e.2.2 ≠ st.gcnt.getD e.2.1 0
  · rw [if_pos hg]
    simp only [heapSt_mk_nxt, heapSt_mk_heap]
    exact ⟨hinv, by omega⟩
  · rw [if_neg hg]
    by_cases hj : st.nxt.getD e.2.1 SENT = SENT
    · rw [if_pos hj]
      simp only [heapSt_mk_nxt, heapSt_mk_heap]
      exact ⟨hinv, by omega⟩
    · rw [if_neg hj]
      have hnx := splice_merge_nxt vocab ⟨st.cur, st.nxt, st.prv, st.gcnt, rest⟩
        e.1 e.2.1 (st.nxt.getD e.2.1 SENT)
      simp only [heapSt_mk_nxt] at hnx
      have hhl := splice_merge_heap_length vocab
        ⟨st.cur, st.nxt, st.prv, st.gcnt, rest⟩ e.1 e.2.1 (st.nxt.getD e.2.1 SENT)
      simp only [heapSt_mk_heap] at hhl
      constructor
      · rw [hnx]
        exact nxt_splice_inv n st.nxt hinv e.2.1 hj
      · have hnz := nxt_splice_nz n st.nxt hinv e.2.1 hj
        rw [hnx]
        omega

/-- The merge loop of the heap strategy terminates: with fuel at least
`heap.length + 2 * nz_count nxt` the result is fuel-independent, and the
linked-list invariant is preserved throughout. -/
theorem merge_loop_go (vocab : UnifiedTokenVocab) (n : Nat) :
    ∀ (fuel : Nat) (st : HeapSt), NxtInv n st.nxt →
      st.heap.length + 2 * nz_count st.nxt ≤ fuel →
      NxtInv n (merge_loop vocab fuel st).nxt ∧
      ∀ extra, merge_loop vocab (fuel + extra) st = merge_loop vocab fuel st := by
  intro fuel
  induction fuel with
  | zero =>
    intro st hinv hf
    have hheap : st.heap = [] := by
      have : st.heap.length = 0 := by omega
      exact List.eq_nil_of_length_eq_zero this
    have hrun : ∀ k, merge_loop vocab k st = st := by
      intro k
      cases k with
      | zero => rfl
      | succ k =>
        show merge_loop vocab (k + 1) st = st
        rw [merge_loop, hheap]
        rfl
    constructor
    · rw [hrun 0]
      exact hinv
    · intro extra
      rw [hrun (0 + extra), hrun 0]
  | succ fuel ih =>
    intro st hinv hf
    cases hpop : heap_pop st.heap with
    | none =>
      have hrun : ∀ k, merge_loop vocab (k + 1) st = st := by
        intro k
        rw [merge_loop, hpop]
      constructor
      · rw [hrun fuel]
        exact hinv
      · intro extra
        rw [show fuel + 1 + extra = (fuel + extra) + 1 by omega,
          hrun (fuel + extra), hrun fuel]
    | some q =>
      obtain ⟨e, rest⟩ := q
      have hlen : rest.length + 1 = st.heap.length := heap_pop_length hpop
      have hstep := heap_step_inv_phi vocab n st e rest hinv hlen
      have hrun : ∀ k, merge_loop vocab (k + 1) st =
          merge_loop vocab k (heap_step vocab st e rest) := by
        intro k
        rw [merge_loop, hpop]
      have hIH := ih (heap_step vocab st e rest) hstep.1 (by omega)
      constructor
      · rw [hrun fuel]
        exact hIH.1
      · intro extra
        rw [show fuel + 1 + extra = (fuel + extra) + 1 by omega,
          hrun (fuel + extra), hrun fuel]
        exact hIH.2 extra

/-- Compaction bounds: walking the linked list from a live position
writes at least one and at most `n - pos` tokens, and extra fuel beyond
`n - pos` changes nothing (`n ≤ SENT` keeps live pointers distinct from
the sentinel, as the `u32` positions of the source do). -/
theorem compact_go_bounds (cur nxt : List Nat) (n : Nat)
    (hinv : NxtInv n nxt) (hn : n ≤ SENT) :
    ∀ (fuel pos : Nat) (acc : List Nat), pos < n → n - pos ≤ fuel →
      acc.length + 1 ≤ (compact_go cur nxt fuel pos acc).length ∧
      (compact_go cur nxt fuel pos acc).length ≤ acc.length + (n - pos) ∧
      ∀ extra, compact_go cur nxt (fuel + extra) pos acc =
        compact_go cur nxt fuel pos acc := by
  intro fuel
  induction fuel with
  | zero =>
    intro pos acc hpos hf
    exact absurd hf (by omega)
  | succ fuel ih =>
    intro pos acc hpos hf
    have hl : (acc ++ [cur.getD pos 0]).length = acc.length + 1 := by simp
    rw [compact_go]
    rcases hinv.2 pos hpos with hsent | hlive
    · rw [if_pos hsent]
      refine ⟨by omega, by omega, ?_⟩
      intro extra
      rw [show fuel + 1 + extra = (fuel + extra) + 1 by omega, compact_go,
        if_pos hsent]
    · have hne : ¬ nxt.getD pos SENT = SENT := by omega
      rw [if_neg hne]
      have hrec := ih (nxt.getD pos SENT) (acc ++ [cur.getD pos 0]) hlive.2
        (by omega)
      refine ⟨by omega, by omega, ?_⟩
      intro extra
      rw [show fuel + 1 + extra = (fuel + extra) + 1 by omega, compact_go,
        if_neg hne]
      exact hrec.2.2 extra

/-- Claim C6: for every vocabulary and non-empty span of `m` bytes, each
per-word merge loop terminates — extra fuel beyond the default bound
changes nothing — because every merge removes exactly one token, so at
most `m - 1` merges occur; consequently every strategy appends between
1 and `m` tokens for the span.  (For the heap strategy, positions are
`u32` values, whence the `span.length ≤ SENT` side condition.) -/
theorem c6_merge_termination (tmax : Nat) (vocab : UnifiedTokenVocab)
    (span tokens : List Nat) (extra : Nat)
    (hne : span ≠ []) (hsmall : span.length ≤ SENT) :
    (tokens.length + 1 ≤ (encode_append_word tmax vocab span tokens).length ∧
     (encode_append_word tmax vocab span tokens).length ≤
       tokens.length + span.length ∧
     rescan_go tmax vocab ((seed_tokens vocab span).length + extra)
         (seed_tokens vocab span)
         (init_pair_ranks tmax vocab (seed_tokens vocab span)) =
       rescan_go tmax vocab (seed_tokens vocab span).length
         (seed_tokens vocab span)
         (init_pair_ranks tmax vocab (seed_tokens vocab span))) ∧
    (1 ≤ (sweep vocab (seed_tokens vocab span)).length ∧
     (sweep vocab (seed_tokens vocab span)).length ≤ span.length ∧
     sweep_go vocab ((seed_tokens vocab span).length + extra)
         (seed_tokens vocab span) =
       sweep vocab (seed_tokens vocab span)) ∧
    (1 ≤ (heap_merge vocab (seed_tokens vocab span)).length ∧
     (heap_merge vocab (seed_tokens vocab span)).length ≤ span.length ∧
     merge_loop vocab
         ((seed_heap_go vocab (seed_tokens vocab span)
             (init_nxt (seed_tokens vocab span).length)
             (seed_tokens vocab span).length 0 []).length +
           2 * (seed_tokens vocab span).length + extra)
         ⟨seed_tokens vocab span, init_nxt (seed_tokens vocab span).length,
           init_prv (seed_tokens vocab span).length,
           List.replicate (seed_tokens vocab span).length 0,
           seed_heap_go vocab (seed_tokens vocab span)
             (init_nxt (seed_tokens vocab span).length)
             (seed_tokens vocab span).length 0 []⟩ =
       merge_loop vocab
         ((seed_heap_go vocab (seed_tokens vocab span)
             (init_nxt (seed_tokens vocab span).length)
             (seed_tokens vocab span).length 0 []).length +
           2 * (seed_tokens vocab span).length)
         ⟨seed_tokens vocab span, init_nxt (seed_tokens vocab span).length,
           init_prv (seed_tokens vocab span).length,
           List.replicate (seed_tokens vocab span).length 0,
           seed_heap_go vocab (seed_tokens vocab span)
             (init_nxt (seed_tokens vocab span).length)
             (seed_tokens vocab span).length 0 []⟩) := by
  have hclen : (seed_tokens vocab span).length = span.length := List.length_map ..
  have hcne : seed_tokens vocab span ≠ [] := by
    unfold seed_tokens
    simpa using hne
  have hnpos : 0 < (seed_tokens vocab span).length := List.length_pos.mpr hcne
  refine ⟨?_, ?_, ?_⟩
  · -- rescan strategy
    have hfeq : ∀ f, rescan_go tmax vocab f (seed_tokens vocab span)
        (init_pair_ranks tmax vocab (seed_tokens vocab span)) =
        spec_merge_filtered_go tmax vocab f (seed_tokens vocab span) :=
      fun f => rescan_go_eq_filtered tmax vocab f (seed_tokens vocab span)
    have hbounds := filtered_go_length tmax vocab
      (seed_tokens vocab span).length (seed_tokens vocab span) hcne
    have henc : encode_append_word tmax vocab span tokens =
        tokens ++ rescan_go tmax vocab (seed_tokens vocab span).length
          (seed_tokens vocab span)
          (init_pair_ranks tmax vocab (seed_tokens vocab span)) := rfl
    refine ⟨?_, ?_, ?_⟩
    · rw [henc, List.length_append, hfeq]
      omega
    · rw [henc, List.length_append, hfeq]
      omega
    · rw [hfeq, hfeq, filtered_go_stable]
  · -- sweep strategy
    have hfeq : ∀ f, sweep_go vocab f (seed_tokens vocab span) =
        spec_merge_go vocab f (seed_tokens vocab span) :=
      fun f => sweep_go_eq_spec vocab f (seed_tokens vocab span)
    have hbounds := spec_go_length vocab
      (seed_tokens vocab span).length (seed_tokens vocab span) hcne
    refine ⟨?_, ?_, ?_⟩
    · unfold sweep
      rw [hfeq]
      omega
    · unfold sweep
      rw [hfeq]
      omega
    · unfold sweep
      rw [hfeq, hfeq, spec_go_stable]
  · -- heap strategy
    have hlen_nxt : (init_nxt (seed_tokens vocab span).length).length =
        (seed_tokens vocab span).length := by
      simp [init_nxt]
    have hinv0 : NxtInv (seed_tokens vocab span).length
        (init_nxt (seed_tokens vocab span).length) :=
      init_nxt_inv (seed_tokens vocab span).length
    have hnz0 : nz_count (init_nxt (seed_tokens vocab span).length) ≤
        (seed_tokens vocab span).length := by
      unfold nz_count
      calc (init_nxt (seed_tokens vocab span).length).countP _
          ≤ (init_nxt (seed_tokens vocab span).length).length :=
            List.countP_le_length _
        _ = _ := hlen_nxt
    have hloop := merge_loop_go vocab (seed_tokens vocab span).length
      ((seed_heap_go vocab (seed_tokens vocab span)
          (init_nxt (seed_tokens vocab span).length)
          (seed_tokens vocab span).length 0 []).length +
        2 * (seed_tokens vocab span).length)
      ⟨seed_tokens vocab span, init_nxt (seed_tokens vocab span).length,
        init_prv (seed_tokens vocab span).length,
        List.replicate (seed_tokens vocab span).length 0,
        seed_heap_go vocab (seed_tokens vocab span)
          (init_nxt (seed_tokens vocab span).length)
          (seed_tokens vocab span).length 0 []⟩
      (by simpa using hinv0) (by simp only [heapSt_mk_nxt, heapSt_mk_heap]; omega)
    have hcomp := compact_go_bounds
      (merge_loop vocab
        ((seed_heap_go vocab (seed_tokens vocab span)
            (init_nxt (seed_tokens vocab span).length)
            (seed_tokens vocab span).length 0 []).length +
          2 * (seed_tokens vocab span).length)
        ⟨seed_tokens vocab span, init_nxt (seed_tokens vocab span).length,
          init_prv (seed_tokens vocab span).length,
          List.replicate (seed_tokens vocab span).length 0,
          seed_heap_go vocab (seed_tokens vocab span)
            (init_nxt (seed_tokens vocab span).length)
            (seed_tokens vocab span).length 0 []⟩).cur
      (merge_loop vocab
        ((seed_heap_go vocab (seed_tokens vocab span)
            (init_nxt (seed_tokens vocab span).length)
            (seed_tokens vocab span).length 0 []).length +
          2 * (seed_tokens vocab span).length)
        ⟨seed_tokens vocab span, init_nxt (seed_tokens vocab span).length,
          init_prv (seed_tokens vocab span).length,
          List.replicate (seed_tokens vocab span).length 0,
          seed_heap_go vocab (seed_tokens vocab span)
            (init_nxt (seed_tokens vocab span).length)
            (seed_tokens vocab span).length 0 []⟩).nxt
      (seed_tokens vocab span).length hloop.1 (by omega)
      (seed_tokens vocab span).length 0 [] hnpos (by omega)
    have hhm : heap_merge vocab (seed_tokens vocab span) =
        compact_go
          (merge_loop vocab
            ((seed_heap_go vocab (seed_tokens vocab span)
                (init_nxt (seed_tokens vocab span).length)
                (seed_tokens vocab span).length 0 []).length +
              2 * (seed_tokens vocab span).length)
            ⟨seed_tokens vocab span, init_nxt (seed_tokens vocab span).length,
              init_prv (seed_tokens vocab span).length,
              List.replicate (seed_tokens vocab span).length 0,
              seed_heap_go vocab (seed_tokens vocab span)
                (init_nxt (seed_tokens vocab span).length)
                (seed_tokens vocab span).length 0 []⟩).cur
          (merge_loop vocab
            ((seed_heap_go vocab (seed_tokens vocab span)
                (init_nxt (seed_tokens vocab span).length)
                (seed_tokens vocab span).length 0 []).length +
              2 * (seed_tokens vocab span).length)
            ⟨seed_tokens vocab span, init_nxt (seed_tokens vocab span).length,
              init_prv (seed_tokens vocab span).length,
              List.replicate (seed_tokens vocab span).length 0,
              seed_heap_go vocab (seed_tokens vocab span)
                (init_nxt (seed_tokens vocab span).length)
                (seed_tokens vocab span).length 0 []⟩).nxt
          (seed_tokens vocab span).length 0 [] := rfl
    refine ⟨?_, ?_, hloop.2 extra⟩
    · rw [hhm]
      have := hcomp.1
      simpa using this
    · rw [hhm]
      have := hcomp.2.1
      simp at this
      omega

theorem chain_from_congr {a a' b b' : Nat} {tr : List SpanRef}
    (ha : a = a') (hb : b = b') (h : chain_from a tr b) : chain_from a' tr b' := by
  subst ha
  subst hb
  exact h

theorem chain_from_append {tr1 tr2 : List SpanRef} :
    ∀ {a m b : Nat}, chain_from a tr1 m → chain_from m tr2 b →
      chain_from a (tr1 ++ tr2) b := by
  induction tr1 with
  | nil =>
    intro a m b h1 h2
    cases h1
    simpa using h2
  | cons sp rest ih =>
    intro a m b h1 h2
    exact ⟨h1.1, h1.2.1, ih h1.2.2 h2⟩

theorem chain_from_le {tr : List SpanRef} :
    ∀ {a b : Nat}, chain_from a tr b → a ≤ b := by
  induction tr with
  | nil => intro a b h; exact le_of_eq h
  | cons sp rest ih =>
    intro a b h
    have h1 := ih h.2.2
    have h2 := h.2.1
    omega

theorem chain_from_bounds {tr : List SpanRef} :
    ∀ {a b : Nat}, chain_from a tr b → ∀ sp ∈ tr,
      a ≤ (span_range sp).1 ∧ (span_range sp).1 < (span_range sp).2 ∧
        (span_range sp).2 ≤ b := by
  induction tr with
  | nil => intro a b _ sp hm; simp at hm
  | cons hd rest ih =>
    intro a b h sp hm
    rcases List.mem_cons.mp hm with he | hm'
    · subst he
      have h1 := chain_from_le h.2.2
      have h2 := h.2.1
      have h3 := h.1
      omega
    · have h1 := ih h.2.2 sp hm'
      have h2 := h.2.1
      have h3 := h.1
      omega

theorem byte_slice_glue (text : List Nat) {a c b : Nat} (h1 : a ≤ c) (h2 : c ≤ b) :
    byte_slice text (a, c) ++ byte_slice text (c, b) = byte_slice text (a, b) := by
  unfold byte_slice
  dsimp only
  have htake : text.take c = (text.take b).take c := by
    rw [List.take_take, Nat.min_eq_left h2]
  rw [htake]
  by_cases hc : a ≤ ((text.take b).take c).length
  · rw [← List.drop_append_of_le_length hc, List.take_append_drop]
  · push_neg at hc
    rw [List.length_take] at hc
    have h3 : (text.take b).length ≤ a := by
      rcases Nat.le_total b text.length with hb | hb
      · rw [List.length_take] at hc ⊢
        omega
      · rw [List.length_take] at hc ⊢
        omega
    rw [List.drop_eq_nil_of_le (by rw [List.length_take]; omega),
      List.drop_eq_nil_of_le (by omega), List.drop_eq_nil_of_le h3]
    rfl

theorem chain_from_concat (text : List Nat) {tr : List SpanRef} :
    ∀ {a b : Nat}, chain_from a tr b →
      tr.flatMap (fun sp => byte_slice text (span_range sp)) =
        byte_slice text (a, b) := by
  induction tr with
  | nil =>
    intro a b h
    cases h
    simp [byte_slice]
  | cons sp rest ih =>
    intro a b h
    obtain ⟨h1, h2, h3⟩ := h
    have hc : (span_range sp).2 ≤ b := chain_from_le h3
    have hle : (span_range sp).1 ≤ (span_range sp).2 := by
      rw [h1]
      exact le_of_lt h2
    rw [List.flatMap_cons, ih h3, ← h1]
    exact byte_slice_glue text hle hc

theorem foldl_lse_ns {Δ : List SpanRef} (h : ∀ sp ∈ Δ, not_special sp) :
    ∀ v, Δ.foldl (fun a sp =>
      match sp with | SpanRef.Special r => r.2 | _ => a) v = v := by
  induction Δ with
  | nil => intro v; rfl
  | cons sp rest ih =>
    intro v
    rw [List.foldl_cons]
    have hsp := h sp (by simp)
    have hrest := fun x hx => h x (List.mem_cons_of_mem _ hx)
    cases sp with
    | Special r => exact hsp.elim
    | Word r => exact ih hrest v
    | Gap r => exact ih hrest v

theorem last_special_end_append_ns {acc Δ : List SpanRef}
    (h : ∀ sp ∈ Δ, not_special sp) :
    last_special_end (acc ++ Δ) = last_special_end acc := by
  unfold last_special_end
  rw [List.foldl_append]
  exact foldl_lse_ns h _

theorem last_special_end_append_special (acc : List SpanRef) (r : Nat × Nat) :
    last_special_end (acc ++ [SpanRef.Special r]) = r.2 := by
  unfold last_special_end
  rw [List.foldl_append]
  rfl

/-- Full behaviour of `for_each_word` under a well-behaved word lexer
(in-bounds, non-empty matches at or after the requested offset): either
the visitor accepts everything and the emitted spans tile
`[last, text.length)` shifted by `offset`, or some span is declined and
the function stops right there, returning the declined span's
chunk-relative start. -/
theorem for_each_word_spec (wlex : SpanLexer)
    (hw : ∀ t off s e, wlex t off = some (s, e) → off ≤ s ∧ s < e ∧ e ≤ t.length)
    (f : Visitor) (text : List Nat) (offset : Nat) :
    ∀ (fuel : Nat) (acc : List SpanRef) (last : Nat),
      last ≤ text.length → text.length - last < fuel →
      (∃ Δ, for_each_word wlex text offset f fuel acc last =
          (acc ++ Δ, some (true, text.length)) ∧
        chain_from (last + offset) Δ (text.length + offset) ∧
        ∀ sp ∈ Δ, not_special sp) ∨
      (∃ Δ r k, for_each_word wlex text offset f fuel acc last =
          (acc ++ Δ ++ [r], some (false, k)) ∧
        f (acc ++ Δ) r = false ∧
        chain_from (last + offset) Δ (k + offset) ∧
        (span_range r).1 = k + offset ∧ k + offset < (span_range r).2 ∧
        (span_range r).2 ≤ text.length + offset ∧ k ≤ text.length ∧
        (∀ sp ∈ Δ, not_special sp) ∧ not_special r) := by
  intro fuel
  induction fuel with
  | zero =>
    intro acc last h1 h2
    omega
  | succ fuel ih =>
    intro acc last h1 h2
    rw [for_each_word]
    cases hlex : wlex text last with
    | none =>
      dsimp only
      by_cases htr : last < text.length
      · rw [if_pos htr]
        by_cases hf : f acc (SpanRef.Gap (offset_range (last, text.length) offset))
        · rw [if_pos hf]
          left
          refine ⟨[SpanRef.Gap (offset_range (last, text.length) offset)], rfl,
            ⟨rfl, by show last + offset < text.length + offset; omega, rfl⟩, ?_⟩
          intro sp hm
          simp at hm
          subst hm
          trivial
        · rw [if_neg hf]
          right
          refine ⟨[], SpanRef.Gap (offset_range (last, text.length) offset), last,
            by simp, by simpa using hf, rfl, rfl,
            by show last + offset < text.length + offset; omega,
            by show text.length + offset ≤ text.length + offset; omega,
            by omega, by simp, trivial⟩
      · rw [if_neg htr]
        left
        have hle : last = text.length := by omega
        exact ⟨[], by simp [hle], by show last + offset = text.length + offset; omega,
          by simp⟩
    | some q =>
      obtain ⟨s, e⟩ := q
      dsimp only
      obtain ⟨hls, hse, hel⟩ := hw text last s e hlex
      by_cases hgap : last < s
      · rw [if_pos hgap]
        by_cases hf1 : f acc (SpanRef.Gap (offset_range (last, s) offset))
        · rw [if_pos hf1]
          by_cases hf2 : f (acc ++ [SpanRef.Gap (offset_range (last, s) offset)])
              (SpanRef.Word (offset_range (s, e) offset))
          · rw [if_pos hf2]
            rcases ih ((acc ++ [SpanRef.Gap (offset_range (last, s) offset)]) ++
                [SpanRef.Word (offset_range (s, e) offset)]) e hel (by omega) with
              ⟨Δ', hres, hchain, hns⟩ |
              ⟨Δ', r, k, hres, hf', hchain, hr1, hr2, hr3, hk, hns, hnsr⟩
            · left
              refine ⟨SpanRef.Gap (offset_range (last, s) offset) ::
                SpanRef.Word (offset_range (s, e) offset) :: Δ', ?_, ?_, ?_⟩
              · rw [hres]
                simp
              · exact ⟨rfl, by show last + offset < s + offset; omega,
                  rfl, by show s + offset < e + offset; omega, hchain⟩
              · intro sp hm
                rcases List.mem_cons.mp hm with he1 | hm1
                · subst he1; trivial
                rcases List.mem_cons.mp hm1 with he2 | hm2
                · subst he2; trivial
                · exact hns sp hm2
            · right
              refine ⟨SpanRef.Gap (offset_range (last, s) offset) ::
                SpanRef.Word (offset_range (s, e) offset) :: Δ', r, k, ?_, ?_, ?_,
                hr1, hr2, hr3, hk, ?_, hnsr⟩
              · rw [hres]
                simp
              · simpa using hf'
              · exact ⟨rfl, by show last + offset < s + offset; omega,
                  rfl, by show s + offset < e + offset; omega, hchain⟩
              · intro sp hm
                rcases List.mem_cons.mp hm with he1 | hm1
                · subst he1; trivial
                rcases List.mem_cons.mp hm1 with he2 | hm2
                · subst he2; trivial
                · exact hns sp hm2
          · rw [if_neg hf2]
            right
            refine ⟨[SpanRef.Gap (offset_range (last, s) offset)],
              SpanRef.Word (offset_range (s, e) offset), s, by simp,
              by simpa using hf2,
              ⟨rfl, by show last + offset < s + offset; omega, rfl⟩, rfl,
              by show s + offset < e + offset; omega,
              by show e + offset ≤ text.length + offset; omega,
              by omega, ?_, trivial⟩
            intro sp hm
            simp at hm
            subst hm
            trivial
        · rw [if_neg hf1]
          right
          refine ⟨[], SpanRef.Gap (offset_range (last, s) offset), last, by simp,
            by simpa using hf1, rfl, rfl,
            by show last + offset < s + offset; omega,
            by show s + offset ≤ text.length + offset; omega,
            by omega, by simp, trivial⟩
      · rw [if_neg hgap]
        by_cases hf2 : f acc (SpanRef.Word (offset_range (s, e) offset))
        · rw [if_pos hf2]
          rcases ih (acc ++ [SpanRef.Word (offset_range (s, e) offset)]) e hel
              (by omega) with
            ⟨Δ', hres, hchain, hns⟩ |
            ⟨Δ', r, k, hres, hf', hchain, hr1, hr2, hr3, hk, hns, hnsr⟩
          · left
            refine ⟨SpanRef.Word (offset_range (s, e) offset) :: Δ', ?_, ?_, ?_⟩
            · rw [hres]
              simp
            · exact ⟨by show s + offset = last + offset; omega,
                by show last + offset < e + offset; omega, hchain⟩
            · intro sp hm
              rcases List.mem_cons.mp hm with he1 | hm1
              · subst he1; trivial
              · exact hns sp hm1
          · right
            refine ⟨SpanRef.Word (offset_range (s, e) offset) :: Δ', r, k, ?_, ?_,
              ?_, hr1, hr2, hr3, hk, ?_, hnsr⟩
            · rw [hres]
              simp
            · simpa using hf'
            · exact ⟨by show s + offset = last + offset; omega,
                by show last + offset < e + offset; omega, hchain⟩
            · intro sp hm
              rcases List.mem_cons.mp hm with he1 | hm1
              · subst he1; trivial
              · exact hns sp hm1
        · rw [if_neg hf2]
          right
          refine ⟨[], SpanRef.Word (offset_range (s, e) offset), last, by simp,
            by simpa using hf2, rfl,
            by show s + offset = last + offset; omega,
            by show last + offset < e + offset; omega,
            by show e + offset ≤ text.length + offset; omega,
            by omega, by simp, trivial⟩

/-- Full behaviour of `for_each_split_span_go` under well-behaved word
and special lexers: either the visitor accepts everything and the
emitted spans tile `[offset, text.length)`, every emitted `Special`
satisfying the lexer-guaranteed property `P`, or some span is declined
and the walk stops there; the returned cursor is the declined span's
absolute start, except after the final word pass (after the last
accepted `Special` span), where it is relative to the remaining
suffix. -/
theorem for_each_split_span_go_spec (wlex : SpanLexer)
    (hw : ∀ t off s e, wlex t off = some (s, e) → off ≤ s ∧ s < e ∧ e ≤ t.length)
    (slex : Option SpanLexer) (P : Nat × Nat → Prop) (text : List Nat)
    (hsp : ∀ lexer, slex = some lexer → ∀ off s e,
      lexer (text.drop off) 0 = some (s, e) →
      s < e ∧ e ≤ (text.drop off).length ∧ P (s + off, e + off))
    (f : Visitor) :
    ∀ (fuel : Nat) (acc : List SpanRef) (offset : Nat),
      (text.drop offset).length < fuel → offset ≤ text.length →
      last_special_end acc = offset →
      (∃ Δ k, for_each_split_span_go wlex slex f fuel acc (text.drop offset)
          offset = (acc ++ Δ, some (true, k)) ∧
        chain_from offset Δ text.length ∧
        ∀ rr, SpanRef.Special rr ∈ Δ → P rr) ∨
      (∃ Δ r k, for_each_split_span_go wlex slex f fuel acc (text.drop offset)
          offset = (acc ++ Δ ++ [r], some (false, k)) ∧
        f (acc ++ Δ) r = false ∧
        chain_from offset Δ (span_range r).1 ∧
        ((span_range r).1 = k ∨
          (span_range r).1 = last_special_end (acc ++ Δ) + k) ∧
        (span_range r).1 < (span_range r).2 ∧ (span_range r).2 ≤ text.length ∧
        (∀ rr, SpanRef.Special rr ∈ Δ → P rr) ∧
        (∀ rr, r = SpanRef.Special rr → P rr)) := by
  intro fuel
  induction fuel with
  | zero =>
    intro acc offset hfuel hoff hlse
    omega
  | succ fuel ih =>
    intro acc offset hfuel hoff hlse
    have hcl : (text.drop offset).length = text.length - offset :=
      List.length_drop ..
    have hword_final :
        (∃ Δ k, for_each_word wlex (text.drop offset) offset f
            ((text.drop offset).length + 2) acc 0 = (acc ++ Δ, some (true, k)) ∧
          chain_from offset Δ text.length ∧
          ∀ rr, SpanRef.Special rr ∈ Δ → P rr) ∨
        (∃ Δ r k, for_each_word wlex (text.drop offset) offset f
            ((text.drop offset).length + 2) acc 0 =
            (acc ++ Δ ++ [r], some (false, k)) ∧
          f (acc ++ Δ) r = false ∧
          chain_from offset Δ (span_range r).1 ∧
          ((span_range r).1 = k ∨
            (span_range r).1 = last_special_end (acc ++ Δ) + k) ∧
          (span_range r).1 < (span_range r).2 ∧
          (span_range r).2 ≤ text.length ∧
          (∀ rr, SpanRef.Special rr ∈ Δ → P rr) ∧
          (∀ rr, r = SpanRef.Special rr → P rr)) := by
      rcases for_each_word_spec wlex hw f (text.drop offset) offset
          ((text.drop offset).length + 2) acc 0 (Nat.zero_le _) (by omega) with
        ⟨Δ, hres, hchain, hns⟩ |
        ⟨Δ, r, k, hres, hf', hchain, hr1, hr2, hr3, hk, hns, hnsr⟩
      · left
        refine ⟨Δ, (text.drop offset).length, hres,
          chain_from_congr (by omega) (by omega) hchain, ?_⟩
        intro rr hm
        exact False.elim (hns _ hm)
      · right
        refine ⟨Δ, r, k, hres, hf',
          chain_from_congr (by omega) hr1.symm hchain,
          Or.inr (by rw [last_special_end_append_ns hns, hlse]; omega),
          by omega, by omega, ?_, ?_⟩
        · intro rr hm
          exact False.elim (hns _ hm)
        · intro rr he
          rw [he] at hnsr
          exact False.elim hnsr
    rw [for_each_split_span_go]
    cases slex with
    | none =>
      dsimp only [next_special_span]
      exact hword_final
    | some lexer =>
      dsimp only [next_special_span]
      cases hspl : lexer (text.drop offset) 0 with
      | none =>
        exact hword_final
      | some q =>
        obtain ⟨s, e⟩ := q
        obtain ⟨hse, hel, hP⟩ := hsp lexer rfl offset s e hspl
        have hpre : ((text.drop offset).take s).length = s := by
          rw [List.length_take]
          omega
        dsimp only
        rcases for_each_word_spec wlex hw f ((text.drop offset).take s) offset
            (((text.drop offset).take s).length + 2) acc 0 (Nat.zero_le _)
            (by omega) with
          ⟨Δ₁, hres1, hchain1, hns1⟩ |
          ⟨Δ₁, r1, k1, hres1, hf1, hchain1, hb1, hb2, hb3, hk1, hns1, hnsr1⟩
        · rw [hres1]
          dsimp only
          have hchain1' : chain_from offset Δ₁ (s + offset) :=
            chain_from_congr (by omega) (by rw [hpre]) hchain1
          by_cases hf3 : f (acc ++ Δ₁)
              (SpanRef.Special (offset_range (s, e) offset)) = true
          · rw [if_pos hf3]
            have hdrop : (text.drop offset).drop e = text.drop (offset + e) := by
              rw [List.drop_drop, Nat.add_comm]
            rw [hdrop]
            have hfuel' : (text.drop (offset + e)).length < fuel := by
              rw [List.length_drop]
              omega
            have hoff' : offset + e ≤ text.length := by omega
            have hlse' : last_special_end
                ((acc ++ Δ₁) ++ [SpanRef.Special (offset_range (s, e) offset)]) =
                offset + e := by
              rw [last_special_end_append_special]
              show e + offset = offset + e
              omega
            rcases ih ((acc ++ Δ₁) ++ [SpanRef.Special (offset_range (s, e) offset)])
                (offset + e) hfuel' hoff' hlse' with
              ⟨Δ', k', hres2, hchain2, hPs2⟩ |
              ⟨Δ', r', k', hres2, hf2, hchain2, hdisj2, hlt2, hub2, hPs2, hPr2⟩
            · refine Or.inl ⟨Δ₁ ++ SpanRef.Special (offset_range (s, e) offset) :: Δ',
                k', ?_, ?_, ?_⟩
              · rw [hres2]
                simp
              · exact chain_from_append hchain1'
                  ⟨rfl, by show s + offset < e + offset; omega,
                    chain_from_congr (by show offset + e = e + offset; omega)
                      rfl hchain2⟩
              · intro rr hm
                rcases List.mem_append.mp hm with h1 | h2
                · exact False.elim (hns1 _ h1)
                · rcases List.mem_cons.mp h2 with he' | h3
                  · injection he' with h4
                    rw [h4]
                    exact hP
                  · exact hPs2 rr h3
            · have hle : ((acc ++ Δ₁) ++
                  [SpanRef.Special (offset_range (s, e) offset)]) ++ Δ' =
                  acc ++ (Δ₁ ++ SpanRef.Special (offset_range (s, e) offset) :: Δ') := by
                simp
              refine Or.inr ⟨Δ₁ ++ SpanRef.Special (offset_range (s, e) offset) :: Δ',
                r', k', ?_, ?_, ?_, ?_, hlt2, hub2, ?_, hPr2⟩
              · rw [hres2]
                simp
              · rw [hle] at hf2
                exact hf2
              · exact chain_from_append hchain1'
                  ⟨rfl, by show s + offset < e + offset; omega,
                    chain_from_congr (by show offset + e = e + offset; omega)
                      rfl hchain2⟩
              · rcases hdisj2 with h | h
                · exact Or.inl h
                · rw [hle] at h
                  exact Or.inr h
              · intro rr hm
                rcases List.mem_append.mp hm with h1 | h2
                · exact False.elim (hns1 _ h1)
                · rcases List.mem_cons.mp h2 with he' | h3
                  · injection he' with h4
                    rw [h4]
                    exact hP
                  · exact hPs2 rr h3
          · rw [if_neg hf3]
            simp only [Bool.not_eq_true] at hf3
            refine Or.inr ⟨Δ₁, SpanRef.Special (offset_range (s, e) offset),
              offset + s, rfl, hf3, hchain1',
              Or.inl (by show s + offset = offset + s; omega),
              by show s + offset < e + offset; omega,
              by show e + offset ≤ text.length; omega, ?_, ?_⟩
            · intro rr hm
              exact False.elim (hns1 _ hm)
            · intro rr he'
              injection he' with h4
              rw [← h4]
              exact hP
        · rw [hres1]
          dsimp only
          refine Or.inr ⟨Δ₁, r1, offset + k1, rfl, hf1,
            chain_from_congr (by omega) hb1.symm hchain1,
            Or.inl (by omega), by omega, by omega, ?_, ?_⟩
          · intro rr hm
            exact False.elim (hns1 _ hm)
          · intro rr he
            rw [he] at hnsr1
            exact False.elim hnsr1

theorem match_at_spec {keys : List (List Nat)} {text : List Nat} {p l : Nat} :
    ∀ {best : Option Nat},
      keys.foldl
        (fun best k =>
          if k.isPrefixOf (text.drop p) then
            match best with
            | none => some k.length
            | some b => if b < k.length then some k.length else some b
          else best) best = some l →
      best = some l ∨ ∃ k ∈ keys, k.length = l ∧ k.isPrefixOf (text.drop p) := by
  induction keys with
  | nil =>
    intro best h
    exact Or.inl h
  | cons k ks ih =>
    intro best h
    rw [List.foldl_cons] at h
    rcases ih h with h1 | ⟨k', hm, hl, hp⟩
    · by_cases hpre : k.isPrefixOf (text.drop p)
      · rw [if_pos hpre] at h1
        cases best with
        | none =>
          dsimp only at h1
          injection h1 with h2
          exact Or.inr ⟨k, by simp, h2, hpre⟩
        | some b =>
          dsimp only at h1
          by_cases hb : b < k.length
          · rw [if_pos hb] at h1
            injection h1 with h2
            exact Or.inr ⟨k, by simp, h2, hpre⟩
          · rw [if_neg hb] at h1
            exact Or.inl h1
      · rw [if_neg hpre] at h1
        exact Or.inl h1
    · exact Or.inr ⟨k', List.mem_cons_of_mem _ hm, hl, hp⟩

theorem special_scan_spec {keys : List (List Nat)} {text : List Nat} {s e : Nat} :
    ∀ (fuel p : Nat), special_scan keys text fuel p = some (s, e) →
      p ≤ s ∧ match_at keys text s = some (e - s) := by
  intro fuel
  induction fuel with
  | zero =>
    intro p h
    exact absurd h (by rw [special_scan]; exact Option.noConfusion)
  | succ fuel ih =>
    intro p h
    rw [special_scan] at h
    cases hm : match_at keys text p with
    | some l =>
      rw [hm] at h
      injection h with h1
      injection h1 with h2 h3
      subst h2
      subst h3
      exact ⟨le_refl _, by rw [hm]; congr 1; omega⟩
    | none =>
      rw [hm] at h
      by_cases hp : p < text.length
      · rw [if_pos hp] at h
        obtain ⟨h1, h2⟩ := ih (p + 1) h
        exact ⟨by omega, h2⟩
      · rw [if_neg hp] at h
        exact Option.noConfusion h

theorem byte_slice_eq_take_drop (t : List Nat) (s e : Nat) :
    byte_slice t (s, e) = (t.drop s).take (e - s) := by
  unfold byte_slice
  dsimp only
  rw [List.drop_take]

theorem byte_slice_abs (t : List Nat) (off s e : Nat) :
    byte_slice (t.drop off) (s, e) = byte_slice t (s + off, e + off) := by
  rw [byte_slice_eq_take_drop, byte_slice_eq_take_drop, List.drop_drop,
    Nat.add_comm off s]
  congr 1
  omega

/-- The exact-match union lexer only emits in-bounds, non-empty ranges
whose bytes are one of the special keys, at or after the requested
offset. -/
theorem special_union_lexer_good {keys : List (List Nat)}
    (hk : ∀ k ∈ keys, k ≠ []) (t : List Nat) (off s e : Nat)
    (h : special_union_lexer keys t off = some (s, e)) :
    off ≤ s ∧ s < e ∧ e ≤ t.length ∧ byte_slice t (s, e) ∈ keys := by
  obtain ⟨h1, h2⟩ := @special_scan_spec keys t s e (t.length + 1) off h
  rcases @match_at_spec keys t s (e - s) none h2 with h3 | ⟨k, hm, hl, hp⟩
  · exact Option.noConfusion h3
  · have hpre : k <+: t.drop s := List.isPrefixOf_iff_prefix.mp hp
    have hne := hk k hm
    have hlen : k.length ≤ (t.drop s).length := hpre.length_le
    have hkpos : 0 < k.length := List.length_pos.mpr hne
    have hdl : (t.drop s).length = t.length - s := List.length_drop ..
    have hslen : s < t.length := by omega
    refine ⟨h1, by omega, by omega, ?_⟩
    rw [byte_slice_eq_take_drop]
    have htake : (t.drop s).take k.length = k := (List.prefix_iff_eq_take.mp hpre).symm
    rw [hl] at htake
    rw [htake]
    exact hm

theorem rest_lexer_good : ∀ (t : List Nat) (off s e : Nat),
    rest_lexer t off = some (s, e) → off ≤ s ∧ s < e ∧ e ≤ t.length := by
  intro t off s e h
  unfold rest_lexer at h
  by_cases hc : off < t.length
  · rw [if_pos hc] at h
    injection h with h1
    injection h1 with h2 h3
    subst h2
    subst h3
    exact ⟨le_refl _, hc, le_refl _⟩
  · rw [if_neg hc] at h
    exact Option.noConfusion h

theorem empty_match_diverges : ∀ (fuel : Nat) (acc : List SpanRef),
    (for_each_word empty_match_lexer [1, 2] 0 (fun _ _ => true) fuel acc 0).2 =
      none := by
  intro fuel
  induction fuel with
  | zero => intro acc; rfl
  | succ n ih => intro acc; exact ih (acc ++ [SpanRef.Word (0, 0)])

/-- C3: with the claim's hypotheses strengthened to non-empty word
matches, the spanner terminates with every span accepted, the emitted
spans tile `[0, text.length)` left-to-right without overlap, and
concatenating their byte contents reproduces the text.  (As stated the
claim is false: a word lexer emitting empty in-bounds matches satisfies
its hypothesis, yet the spanner loops forever — see the
counterexample.) -/
theorem c3_spanner_partition (wlex : SpanLexer)
    (hw : ∀ t off s e, wlex t off = some (s, e) → off ≤ s ∧ s < e ∧ e ≤ t.length)
    (slex : Option SpanLexer)
    (hsl : ∀ lexer, slex = some lexer → ∀ t off s e,
      lexer t off = some (s, e) → s < e ∧ e ≤ t.length)
    (f : Visitor) (hf : ∀ h sp, f h sp = true) (text : List Nat) :
    ∃ tr k, for_each_split_span wlex slex f text = (tr, some (true, k)) ∧
      chain_from 0 tr text.length ∧
      tr.flatMap (fun sp => byte_slice text (span_range sp)) = text := by
  have hgo := for_each_split_span_go_spec wlex hw slex (fun _ => True) text
    (by
      intro lexer hl off s e h
      obtain ⟨a, b⟩ := hsl lexer hl _ _ _ _ h
      exact ⟨a, b, trivial⟩)
    f (text.length + 1) [] 0
    (by rw [List.drop_zero]; omega) (Nat.zero_le _) rfl
  rw [List.drop_zero] at hgo
  rcases hgo with ⟨Δ, k, hres, hchain, _⟩ | ⟨Δ, r, k, hres, hfr, _⟩
  · rw [List.nil_append] at hres
    refine ⟨Δ, k, hres, hchain, ?_⟩
    rw [chain_from_concat text hchain]
    simp [byte_slice]
  · rw [hf] at hfr
    exact Bool.noConfusion hfr

/-- C3 counterexample: the empty-match word lexer satisfies the claim's
hypothesis (its ranges lie within the text and start at or after the
offset), yet `for_each_word` — and hence `for_each_split_span` — never
terminates on it (every fuel is exhausted), so no partition of the text
is produced. -/
theorem c3_counterexample :
    (∀ t off s e, empty_match_lexer t off = some (s, e) →
      off ≤ s ∧ s ≤ e ∧ e ≤ t.length) ∧
    (∀ fuel acc,
      (for_each_word empty_match_lexer [1, 2] 0 (fun _ _ => true) fuel acc 0).2 =
        none) ∧
    (for_each_split_span empty_match_lexer none (fun _ _ => true) [1, 2]).2 =
      none := by
  refine ⟨?_, empty_match_diverges, by decide⟩
  intro t off s e h
  unfold empty_match_lexer at h
  by_cases hc : off = 0
  · rw [if_pos hc] at h
    injection h with h1
    injection h1 with h2 h3
    subst h2
    subst h3
    exact ⟨by omega, by omega, by omega⟩
  · rw [if_neg hc] at h
    exact Option.noConfusion h

theorem c3_spanner_partition_witness :
    ∃ tr k, for_each_split_span rest_lexer none (fun _ _ => true) [5, 6] =
        (tr, some (true, k)) ∧
      chain_from 0 tr ([5, 6] : List Nat).length ∧
      tr.flatMap (fun sp => byte_slice [5, 6] (span_range sp)) = [5, 6] :=
  c3_spanner_partition rest_lexer rest_lexer_good none
    (fun _ hl => Option.noConfusion hl) (fun _ _ => true) (fun _ _ => rfl) [5, 6]

/-- C10 (amended): whenever the visitor declines a span, the spanner
returns `(false, k)` where the declined span's absolute start is either
`k` itself or `last_special_end trace + k` — the source forgets to add
the consumed-prefix offset on the final word pass, so after a special
has been accepted the cursor is relative to the remaining suffix — and
every span previously passed to the visitor lies within `[0, start)`. -/
theorem c10_early_exit (wlex : SpanLexer)
    (hw : ∀ t off s e, wlex t off = some (s, e) → off ≤ s ∧ s < e ∧ e ≤ t.length)
    (slex : Option SpanLexer)
    (hsl : ∀ lexer, slex = some lexer → ∀ t off s e,
      lexer t off = some (s, e) → s < e ∧ e ≤ t.length)
    (f : Visitor) (text : List Nat) :
    (∃ tr k, for_each_split_span wlex slex f text = (tr, some (true, k))) ∨
    (∃ Δ r k, for_each_split_span wlex slex f text = (Δ ++ [r], some (false, k)) ∧
      f Δ r = false ∧
      chain_from 0 Δ (span_range r).1 ∧
      ((span_range r).1 = k ∨ (span_range r).1 = last_special_end Δ + k) ∧
      (span_range r).1 < (span_range r).2 ∧ (span_range r).2 ≤ text.length) := by
  have hgo := for_each_split_span_go_spec wlex hw slex (fun _ => True) text
    (by
      intro lexer hl off s e h
      obtain ⟨a, b⟩ := hsl lexer hl _ _ _ _ h
      exact ⟨a, b, trivial⟩)
    f (text.length + 1) [] 0
    (by rw [List.drop_zero]; omega) (Nat.zero_le _) rfl
  rw [List.drop_zero] at hgo
  rcases hgo with ⟨Δ, k, hres, _, _⟩ | ⟨Δ, r, k, hres, hfr, hchain, hdisj, hlt, hub, _, _⟩
  · exact Or.inl ⟨[] ++ Δ, k, hres⟩
  · rw [List.nil_append] at hres hfr hdisj
    exact Or.inr ⟨Δ, r, k, hres, hfr, hchain, hdisj, hlt, hub⟩

/-- C10 counterexample: with word lexer `.+`, special key `[9]`, and a
visitor declining `Word` spans, the spanner on `[9, 1, 2]` declines the
word span `(1, 3)` (absolute start 1) yet returns cursor `0` — the
start of the declined span relative to the suffix after the accepted
special — and the already-visited `Special (0, 1)` does not lie within
`[0, 0)`. -/
theorem c10_counterexample :
    for_each_split_span rest_lexer (some (special_union_lexer [[9]]))
        reject_words [9, 1, 2] =
      ([SpanRef.Special (0, 1), SpanRef.Word (1, 3)], some (false, 0)) ∧
    (span_range (SpanRef.Word (1, 3))).1 = 1 ∧
    ¬ (span_range (SpanRef.Special (0, 1))).2 ≤ 0 := by
  decide

theorem c10_early_exit_witness :
    (∃ tr k, for_each_split_span rest_lexer (some (special_union_lexer [[9]]))
        reject_words [9, 1, 2] = (tr, some (true, k))) ∨
    (∃ Δ r k, for_each_split_span rest_lexer (some (special_union_lexer [[9]]))
        reject_words [9, 1, 2] = (Δ ++ [r], some (false, k)) ∧
      reject_words Δ r = false ∧
      chain_from 0 Δ (span_range r).1 ∧
      ((span_range r).1 = k ∨ (span_range r).1 = last_special_end Δ + k) ∧
      (span_range r).1 < (span_range r).2 ∧
      (span_range r).2 ≤ ([9, 1, 2] : List Nat).length) :=
  c10_early_exit rest_lexer rest_lexer_good (some (special_union_lexer [[9]]))
    (by
      intro lexer hl t off s e h
      injection hl with hl'
      subst hl'
      obtain ⟨_, h2, h3, _⟩ :=
        special_union_lexer_good (by decide) t off s e h
      exact ⟨h2, h3⟩)
    reject_words [9, 1, 2]

theorem byte_slice_ne_nil (t : List Nat) (r : Nat × Nat)
    (h1 : r.1 < r.2) (h2 : r.2 ≤ t.length) : byte_slice t r ≠ [] := by
  intro heq
  have hlen : (byte_slice t r).length = 0 := by rw [heq]; rfl
  rw [byte_slice, List.length_drop, List.length_take] at hlen
  omega

theorem foldlM_isSome {α β : Type} (g : β → α → Option β) :
    ∀ (l : List α) (b : β), (∀ a ∈ l, ∀ b', (g b' a).isSome) →
      (l.foldlM g b).isSome := by
  intro l
  induction l with
  | nil => intro b _; rfl
  | cons a l ih =>
    intro b h
    rw [List.foldlM_cons]
    have ha := h a (by simp) b
    cases hg : g b a with
    | none => rw [hg] at ha; exact Bool.noConfusion ha
    | some b' =>
      show (l.foldlM g b').isSome
      exact ih b' (fun x hx b'' => h x (List.mem_cons_of_mem _ hx) b'')

/-- Under a well-behaved word lexer, the spanner with the exact-match
union special lexer and an all-accepting visitor terminates, its trace
tiles the text, and every emitted `Special` slices to one of the
declared keys. -/
theorem union_spanner_trace (wlex : SpanLexer)
    (hw : ∀ t off s e, wlex t off = some (s, e) → off ≤ s ∧ s < e ∧ e ≤ t.length)
    (keys : List (List Nat)) (hk : ∀ k ∈ keys, k ≠ []) (text : List Nat) :
    ∃ tr k, for_each_split_span wlex (some (special_union_lexer keys))
        (fun _ _ => true) text = (tr, some (true, k)) ∧
      chain_from 0 tr text.length ∧
      ∀ rr, SpanRef.Special rr ∈ tr → byte_slice text rr ∈ keys := by
  have hgo := for_each_split_span_go_spec wlex hw (some (special_union_lexer keys))
    (fun rr => byte_slice text rr ∈ keys) text
    (by
      intro lexer hl off s e h
      injection hl with hl'
      subst hl'
      obtain ⟨_, h2, h3, h4⟩ := special_union_lexer_good hk (text.drop off) 0 s e h
      refine ⟨h2, h3, ?_⟩
      show byte_slice text (s + off, e + off) ∈ keys
      rw [← byte_slice_abs]
      exact h4)
    (fun _ _ => true) (text.length + 1) [] 0
    (by rw [List.drop_zero]; omega) (Nat.zero_le _) rfl
  rw [List.drop_zero] at hgo
  rcases hgo with ⟨Δ, k, hres, hchain, hPs⟩ | ⟨Δ, r, k, hres, hfr, _⟩
  · refine ⟨Δ, k, ?_, hchain, fun rr hm => hPs rr hm⟩
    unfold for_each_split_span
    simpa using hres
  · exact Bool.noConfusion hfr

/-- C4 (amended): every `Special` span the spanner emits slices to one
of the declared special keys, is a single span in the left-to-right
tiling of the text, and `encode_append_span_ref` pushes exactly the one
token ID of that key for it — specials present in the vocabulary are
never fragmented.  (As stated the claim is false for overlapping
occurrences: a later occurrence of a key overlapping an earlier match
is not emitted as a `Special` span — see the counterexample.) -/
theorem c4_special_atomicity (wlex : SpanLexer)
    (hw : ∀ t off s e, wlex t off = some (s, e) → off ≤ s ∧ s < e ∧ e ≤ t.length)
    (keys : List (List Nat)) (hk : ∀ k ∈ keys, k ≠ [])
    (vocab : UnifiedTokenVocab)
    (hkv : ∀ k ∈ keys, (lookup_special vocab k).isSome)
    (text : List Nat) :
    ∃ tr k', for_each_split_span wlex (some (special_union_lexer keys))
        (fun _ _ => true) text = (tr, some (true, k')) ∧
      chain_from 0 tr text.length ∧
      ∀ r, SpanRef.Special r ∈ tr →
        byte_slice text r ∈ keys ∧
        ∃ id, lookup_special vocab (byte_slice text r) = some id ∧
          ∀ tmax toks, encode_append_span_ref tmax vocab text
            (SpanRef.Special r) toks = some (toks ++ [id]) := by
  obtain ⟨tr, k, hres, hchain, hPs⟩ := union_spanner_trace wlex hw keys hk text
  refine ⟨tr, k, hres, hchain, ?_⟩
  intro r hm
  have hmem := hPs r hm
  obtain ⟨id, hid⟩ := Option.isSome_iff_exists.mp (hkv _ hmem)
  refine ⟨hmem, id, hid, ?_⟩
  intro tmax toks
  unfold encode_append_span_ref
  dsimp only
  rw [hid]

/-- C4 counterexample: with special key `[1, 1]` and text `[1, 1, 1]`,
the key also occurs at positions `1..3` (`byte_slice` check below), but
the spanner emits only `Special (0, 2)` and a `Word` for the rest: the
overlapping occurrence is not emitted as a single `Special` span. -/
theorem c4_counterexample :
    byte_slice [1, 1, 1] (1, 3) = [1, 1] ∧
    for_each_split_span rest_lexer (some (special_union_lexer [[1, 1]]))
        (fun _ _ => true) [1, 1, 1] =
      ([SpanRef.Special (0, 2), SpanRef.Word (2, 3)], some (true, 1)) ∧
    ∀ sp ∈ [SpanRef.Special (0, 2), SpanRef.Word (2, 3)],
      sp ≠ SpanRef.Special (1, 3) := by
  decide

theorem c4_special_atomicity_witness :
    ∃ tr k', for_each_split_span rest_lexer (some (special_union_lexer [[9]]))
        (fun _ _ => true) [9, 1] = (tr, some (true, k')) ∧
      chain_from 0 tr ([9, 1] : List Nat).length ∧
      ∀ r, SpanRef.Special r ∈ tr →
        byte_slice [9, 1] r ∈ [[9]] ∧
        ∃ id, lookup_special c5v (byte_slice [9, 1] r) = some id ∧
          ∀ tmax toks, encode_append_span_ref tmax c5v [9, 1]
            (SpanRef.Special r) toks = some (toks ++ [id]) :=
  c4_special_atomicity rest_lexer rest_lexer_good [[9]] (by decide) c5v
    (by decide) [9, 1]

/-- C5: under the exact-match union special lexer over non-empty keys
that are all present in the special vocabulary (the construction-time
guarantee of `TextSegmentor::init`, spec-modelled), and a well-behaved
word lexer, `try_encode_append` always returns a value: the
`lookup_special(..).unwrap()` for a `Special` span cannot panic, the
word-merge path never sees an empty word, and the spanner terminates. -/
theorem c5_no_panic (tmax : Nat) (vocab : UnifiedTokenVocab) (wlex : SpanLexer)
    (hw : ∀ t off s e, wlex t off = some (s, e) → off ≤ s ∧ s < e ∧ e ≤ t.length)
    (keys : List (List Nat)) (hk : ∀ k ∈ keys, k ≠ [])
    (hkv : ∀ k ∈ keys, (lookup_special vocab k).isSome)
    (text tokens : List Nat) :
    (try_encode_append tmax vocab wlex (some (special_union_lexer keys)) text
      tokens).isSome := by
  obtain ⟨tr, k, hres, hchain, hPs⟩ := union_spanner_trace wlex hw keys hk text
  unfold try_encode_append
  rw [hres]
  dsimp only
  apply foldlM_isSome
  intro sp hm toks
  have hb := chain_from_bounds hchain sp hm
  cases sp with
  | Gap r => rfl
  | Word r =>
    unfold encode_append_span_ref
    dsimp only
    cases hlt : vocab.lookup_token (byte_slice text r) with
    | some t => rfl
    | none =>
      dsimp only
      rw [if_neg (byte_slice_ne_nil text r hb.2.1 hb.2.2)]
      rfl
  | Special r =>
    have hmem := hPs r hm
    obtain ⟨id, hid⟩ := Option.isSome_iff_exists.mp (hkv _ hmem)
    unfold encode_append_span_ref
    dsimp only
    rw [hid]
    rfl

theorem c5_no_panic_witness :
    (try_encode_append 65535 c5v rest_lexer
      (some (special_union_lexer [[9]])) [9, 1] []).isSome :=
  c5_no_panic 65535 c5v rest_lexer rest_lexer_good [[9]] (by decide) (by decide)
    [9, 1] []

theorem pool_encoder_eval (enc : List Nat → List Nat → Option (List Nat))
    (max_pool : Option Nat) (sys_max : Nat) (tid : Nat)
    (h1 : 0 < sys_max) (h2 : ∀ m, max_pool = some m → 0 < m)
    (text tokens : List Nat) :
    pool_encoder_try_encode_append enc max_pool sys_max tid text tokens =
      some (enc text tokens) := by
  have hlen : 0 < min (max_pool.getD sys_max) sys_max := by
    cases max_pool with
    | none => simpa using h1
    | some m =>
      have := h2 m rfl
      simp only [Option.getD_some]
      omega
  unfold pool_encoder_try_encode_append pool_toy_get pool_toy_init
  rw [List.length_replicate]
  rw [List.getElem?_replicate]
  rw [if_pos (Nat.mod_lt _ hlen)]
  rfl

/-- C9: the tokens produced through `PoolEncoder` do not depend on the
configured pool size, the system parallelism, or which pool slot the
thread hash selects: every slot holds a clone of the same inner
encoder, so the call always evaluates `try_encode_append` of the inner
encoder on the text. -/
theorem c9_pool_independence (tmax : Nat) (vocab : UnifiedTokenVocab)
    (wlex : SpanLexer) (slex : Option SpanLexer)
    (mp1 mp2 : Option Nat) (sm1 sm2 tid1 tid2 : Nat)
    (h1 : 0 < sm1) (h2 : 0 < sm2)
    (h3 : ∀ m, mp1 = some m → 0 < m) (h4 : ∀ m, mp2 = some m → 0 < m)
    (text tokens : List Nat) :
    pool_encoder_try_encode_append (try_encode_append tmax vocab wlex slex)
        mp1 sm1 tid1 text tokens =
      some (try_encode_append tmax vocab wlex slex text tokens) ∧
    pool_encoder_try_encode_append (try_encode_append tmax vocab wlex slex)
        mp2 sm2 tid2 text tokens =
      pool_encoder_try_encode_append (try_encode_append tmax vocab wlex slex)
        mp1 sm1 tid1 text tokens := by
  have e1 := pool_encoder_eval (try_encode_append tmax vocab wlex slex)
    mp1 sm1 tid1 h1 h3 text tokens
  have e2 := pool_encoder_eval (try_encode_append tmax vocab wlex slex)
    mp2 sm2 tid2 h2 h4 text tokens
  exact ⟨e1, by rw [e1, e2]⟩

theorem c9_pool_independence_witness :
    pool_encoder_try_encode_append
        (try_encode_append 65535 c5v rest_lexer (some (special_union_lexer [[9]])))
        (some 2) 8 5 [9, 1] [] =
      some (try_encode_append 65535 c5v rest_lexer
        (some (special_union_lexer [[9]])) [9, 1] []) ∧
    pool_encoder_try_encode_append
        (try_encode_append 65535 c5v rest_lexer (some (special_union_lexer [[9]])))
        none 3 11 [9, 1] [] =
      pool_encoder_try_encode_append
        (try_encode_append 65535 c5v rest_lexer (some (special_union_lexer [[9]])))
        (some 2) 8 5 [9, 1] [] :=
  c9_pool_independence 65535 c5v rest_lexer (some (special_union_lexer [[9]]))
    (some 2) none 8 3 5 11 (by omega) (by omega)
    (by intro m h; injection h with h'; omega)
    (fun m h => Option.noConfusion h) [9, 1] []

theorem c6_merge_termination_witness :
    (([9] : List Nat).length + 1 ≤
        (encode_append_word 65535 test_vocab [1, 2, 3] [9]).length ∧
      (encode_append_word 65535 test_vocab [1, 2, 3] [9]).length ≤
        ([9] : List Nat).length + ([1, 2, 3] : List Nat).length) ∧
    (1 ≤ (sweep test_vocab (seed_tokens test_vocab [1, 2, 3])).length ∧
      (sweep test_vocab (seed_tokens test_vocab [1, 2, 3])).length ≤
        ([1, 2, 3] : List Nat).length) ∧
    (1 ≤ (heap_merge test_vocab (seed_tokens test_vocab [1, 2, 3])).length ∧
      (heap_merge test_vocab (seed_tokens test_vocab [1, 2, 3])).length ≤
        ([1, 2, 3] : List Nat).length) :=
  have h := c6_merge_termination 65535 test_vocab [1, 2, 3] [9] 5
    (by decide) (by decide)
  ⟨⟨h.1.1, h.1.2.1⟩, ⟨h.2.1.1, h.2.1.2.1⟩, ⟨h.2.2.1, h.2.2.2.1⟩⟩
